import Mathlib

/-!
Verification of the ICLR2026ReviewTracker snapshot-reconciliation core.

This file gives a shallow embedding of the merge engine in `merge.py`
(`merge_reviews`, `analyze_data`) and of the presentation-layer counting in
`generate_static_site.py` (`get_rating_changes`, `count_reviews`,
`count_review_changes_by_type`), and proves or refutes the specified
properties of those functions.

Modelling conventions, matching the Python source:
* A JSON review / submission record is modelled by a structure holding
  exactly the fields the embedded functions read.  A missing or empty
  string id is modelled as `""` (both are falsy in Python, and the code
  only ever tests truthiness of ids or uses them as dict keys).
  `version`, `mdate` and `number` are read with `.get(k, 0)` in the code,
  so they are modelled as the already-defaulted integers.
  `content.rating.value` is `Option Int`; a rating value of `0` is falsy
  in Python and the code tests `if reply_id and rating`.
* Python `dict`s preserve insertion order and update values in place;
  they are modelled by association lists with `odFind` / `odUpdate`.
  Python `set`s are modelled by first-occurrence-deduplicated lists
  (only cardinalities of these sets are ever used).
* Python's stable `list.sort(key=...)` is modelled by
  `List.insertionSort` with the non-strict lexicographic order on the
  key, which is likewise stable.
* String comparison in Python is lexicographic on code points; `strLe`
  below implements exactly that on `String.data`.
-/

/-- One observed state (version) of a review, as read by the merge and
site-generation code: `id`, `number`, `version`, `mdate`,
`content.rating.value`, `invitations`. -/
structure Review where
  id : String
  number : Int
  version : Int
  mdate : Int
  rating : Option Int
  invitations : List String
deriving DecidableEq

/-- A submission record, as read by the embedded functions: `id`, `number`,
a representative metadata field `title` (for `content.title.value`), and
`details.directReplies`. -/
structure Submission where
  id : String
  number : Int
  title : String
  directReplies : List Review
deriving DecidableEq

/-- A snapshot: a chronokey (timestamp string or the sentinel `"merged"`)
together with the captured submission list. -/
abbrev Snapshot := String × List Submission

/-- Error taxonomy of the spec for `merge_reviews`.  In the source, the
empty-input failure surfaces as the uncaught `IndexError` raised by
`all_files_data[-1]` on an empty list. -/
inductive MergeErr where
  | EmptyInputError
  | NoMetadataSourceError
deriving DecidableEq

/-! ### Ordered dictionaries (Python `dict` with insertion order) -/

/-- Lookup in an insertion-ordered association list. -/
def odFind {κ β : Type _} [DecidableEq κ] : List (κ × β) → κ → Option β
  | [], _ => none
  | p :: rest, k => if p.1 = k then some p.2 else odFind rest k

/-- Update in an insertion-ordered association list: if the key is present
its value is replaced in place, otherwise the binding is appended — the
semantics of assignment to a Python `dict` entry. -/
def odUpdate {κ β : Type _} [DecidableEq κ] (l : List (κ × β)) (k : κ) (f : Option β → β) :
    List (κ × β) :=
  match l with
  | [] => [(k, f none)]
  | p :: rest => if p.1 = k then (p.1, f (some p.2)) :: rest else p :: odUpdate rest k f

/-! ### String order (Python lexicographic comparison on code points) -/

/-- Non-strict lexicographic order on lists of characters, by code point. -/
def charListLe : List Char → List Char → Bool
  | [], _ => true
  | _ :: _, [] => false
  | a :: as, b :: bs => if a.toNat < b.toNat then true
      else if b.toNat < a.toNat then false
      else charListLe as bs

/-- Python's `<=` on strings. -/
def strLe (a b : String) : Prop := charListLe a.data b.data = true

instance : DecidableRel strLe := fun a b => by unfold strLe; infer_instance

/-! ### Sort keys used by `merge.py` -/

/-- Key order of `all_files_data.sort(key=lambda x: (x[0] != 'merged', x[0]))`:
sentinel snapshots first, then dated snapshots by chronokey ascending. -/
def snapLe (a b : Snapshot) : Prop :=
  (a.1 = "merged" ∧ ¬ b.1 = "merged") ∨
    (((a.1 = "merged") ↔ (b.1 = "merged")) ∧ strLe a.1 b.1)

instance : DecidableRel snapLe := fun a b => by unfold snapLe; infer_instance

/-- Key order of the review sort `(r.get('number',0), r.get('version',0), r.get('mdate',0))`. -/
def reviewLe (a b : Review) : Prop :=
  a.number < b.number ∨
    (a.number = b.number ∧
      (a.version < b.version ∨ (a.version = b.version ∧ a.mdate ≤ b.mdate)))

instance : DecidableRel reviewLe := fun a b => by unfold reviewLe; infer_instance

/-- Key order of the final submission sort `s.get('number', 0)`. -/
def subLe (a b : Submission) : Prop := a.number ≤ b.number

instance : DecidableRel subLe := fun a b => by unfold subLe; infer_instance

/-- Key order of `sorted(history, key=lambda x: x['date'])` in
`get_rating_changes` (entries are `(mdate, rating)` pairs). -/
def dateLe (a b : Int × Int) : Prop := a.1 ≤ b.1

instance : DecidableRel dateLe := fun a b => by unfold dateLe; infer_instance

/-! ### The merge engine (`merge.py`, `merge_reviews`) -/

/-- Line 104: `all_files_data.sort(key=lambda x: (x[0] != 'merged', x[0]))`. -/
def sortSnapshots (l : List Snapshot) : List Snapshot := List.insertionSort snapLe l

/-- Lines 107–113: scan `reversed(all_files_data)` for the first snapshot
whose chronokey is not the sentinel. -/
def findLatestDated (l : List Snapshot) : Option Snapshot :=
  l.reverse.find? (fun p => decide (¬ p.1 = "merged"))

/-- Lines 107–117: select the metadata source.  `if not latest_submissions`
is true both when no dated snapshot was found and when the found one has an
empty submission list; the fallback `all_files_data[-1]` raises on an empty
list, modelled as `EmptyInputError`. -/
def selectBase (sorted : List Snapshot) : Except MergeErr Snapshot :=
  match findLatestDated sorted with
  | some p =>
      if p.2.isEmpty then
        match sorted.getLast? with
        | some q => .ok q
        | none => .error .EmptyInputError
      else .ok p
  | none =>
      match sorted.getLast? with
      | some q => .ok q
      | none => .error .EmptyInputError

/-- Lines 122–126: `merged_submissions[sub_id] = submission.copy()` for every
submission of the base snapshot with a truthy id. -/
def seedMerged (base : List Submission) : List (String × Submission) :=
  base.foldl (fun m s => if s.id = "" then m else odUpdate m s.id (fun _ => s)) []

/-- Lines 159–173: append a review to its review-id bucket unless an entry
with the same `(version, mdate)` is already there. -/
def bucketPut (o : Option (List Review)) (r : Review) : List Review :=
  let vs := o.getD []
  if vs.any (fun e => decide (e.version = r.version ∧ e.mdate = r.mdate)) then vs
  else vs ++ [r]

/-- Lines 150–173: fold one review into the per-submission review dict. -/
def insertReview (d : List (String × List Review)) (r : Review) :
    List (String × List Review) :=
  if r.id = "" then d
  else odUpdate d r.id (fun o => bucketPut o r)

/-- Lines 137–173: fold one submission's reviews into the version store,
creating its (possibly empty) review dict first. -/
def insertSubmission (c : List (String × List (String × List Review))) (s : Submission) :
    List (String × List (String × List Review)) :=
  if s.id = "" then c
  else odUpdate c s.id (fun o => s.directReplies.foldl insertReview (o.getD []))

/-- Lines 131–175: build the version store by folding every snapshot, in
sorted order. -/
def collectAll (l : List Snapshot) : List (String × List (String × List Review)) :=
  l.foldl (fun c p => p.2.foldl insertSubmission c) []

/-- Lines 184–187: flatten all review-version buckets of one submission into
a single list, in bucket insertion order. -/
def flattenGroups (groups : List (String × List Review)) : List Review :=
  groups.foldl (fun acc g => acc ++ g.2) []

/-- Lines 182–205: re-attach the consolidated, sorted version lists to the
seeded submissions (a submission whose id never reached the version store
keeps its own review list). -/
def attachReviews (coll : List (String × List (String × List Review)))
    (m : List (String × Submission)) : List Submission :=
  m.map (fun e =>
    match odFind coll e.1 with
    | some groups =>
        { e.2 with directReplies := List.insertionSort reviewLe (flattenGroups groups) }
    | none => e.2)

/-- `merge_reviews` (merge.py lines 92–214): sort the snapshots, select the
metadata base, build the version store, re-attach review lists, and sort the
result by submission number. -/
def merge_reviews (all_files_data : List Snapshot) : Except MergeErr (List Submission) :=
  let sorted := sortSnapshots all_files_data
  match selectBase sorted with
  | .error e => .error e
  | .ok base =>
      .ok (List.insertionSort subLe
        (attachReviews (collectAll sorted) (seedMerged base.2)))

/-! ### The reconciliation report (`merge.py`, `analyze_data`) -/

/-- Result record of `analyze_data`. -/
structure Stats where
  total_submissions : Nat
  submissions_with_reviews : Nat
  total_review_entries : Nat
  unique_reviews : Nat
  multi_version_count : Nat
  version_distribution : List (Nat × Nat)
deriving DecidableEq

/-- Accumulator of the `analyze_data` loop. -/
structure AnalyzeAcc where
  withReviews : Nat
  totalEntries : Nat
  allIds : List String
  multi : Nat
  dist : List (Nat × Nat)
deriving DecidableEq

/-- One iteration of the `analyze_data` loop (lines 44–66).  The global
`all_review_ids` set is modelled by a first-occurrence list; only its
cardinality is used. -/
def analyzeStep (acc : AnalyzeAcc) (s : Submission) : AnalyzeAcc :=
  let reviews := s.directReplies
  if reviews.isEmpty then acc
  else
    let gi := reviews.foldl
      (fun (p : List (String × List Review) × List String) r =>
        if r.id = "" then p
        else
          (odUpdate p.1 r.id (fun o => o.getD [] ++ [r]),
           if r.id ∈ p.2 then p.2 else p.2 ++ [r.id]))
      (([] : List (String × List Review)), acc.allIds)
    let uniq := gi.1.length
    let tot := reviews.length
    { withReviews := acc.withReviews + 1
      totalEntries := acc.totalEntries + tot
      allIds := gi.2
      multi := if uniq < tot then acc.multi + 1 else acc.multi
      dist := if uniq < tot then odUpdate acc.dist (tot - uniq) (fun o => o.getD 0 + 1)
              else acc.dist }

/-- `analyze_data` (merge.py lines 31–70). -/
def analyze_data (data : List Submission) : Stats :=
  let acc := data.foldl analyzeStep ⟨0, 0, [], 0, []⟩
  { total_submissions := data.length
    submissions_with_reviews := acc.withReviews
    total_review_entries := acc.totalEntries
    unique_reviews := acc.allIds.length
    multi_version_count := acc.multi
    version_distribution := acc.dist }

/-! ### The presentation layer (`generate_static_site.py`) -/

/-- Substring test, Python's `pat in s`. -/
def substrIn (pat s : String) : Bool :=
  s.data.tails.any (fun t => pat.data.isPrefixOf t)

/-- `any('Official_Review' in inv for inv in invitations)`. -/
def isOfficialReview (r : Review) : Bool :=
  r.invitations.any (fun inv => substrIn "Official_Review" inv)

/-- Second stage of `get_rating_changes` for one review id: sort the
`(mdate, rating)` history by date and, if more than one rated version
exists, return `new_rating - old_rating`. -/
def ratingDelta (l : List (Int × Int)) : Option Int :=
  let sl := List.insertionSort dateLe l
  if 2 ≤ sl.length then some ((sl.getLastD (0, 0)).2 - (sl.headD (0, 0)).2)
  else none

/-- `get_rating_changes` (generate_static_site.py lines 52–79): group the
rated versions of each reply id (a reply counts only if it has a truthy id
and a present, truthy `content.rating.value`), then record the signed delta
for ids with at least two rated versions. -/
def get_rating_changes (replies : List Review) : List (String × Int) :=
  let hist := replies.foldl
    (fun h r =>
      match r.rating with
      | some v =>
          if r.id = "" ∨ v = 0 then h
          else odUpdate h r.id (fun o => o.getD [] ++ [(r.mdate, v)])
      | none => h) []
  hist.filterMap (fun g => (ratingDelta g.2).map (fun d => (g.1, d)))

/-- `count_reviews` (lines 113–122): count distinct truthy ids among replies
with an `Official_Review` invitation. -/
def count_reviews (replies : List Review) : Nat :=
  (replies.foldl
    (fun ids r =>
      if isOfficialReview r ∧ ¬ r.id = "" then
        if r.id ∈ ids then ids else ids ++ [r.id]
      else ids) []).length

/-- First loop of `count_review_changes_by_type` (lines 130–138): collect
the official review ids (a set, modelled first-occurrence) and, per id, the
truthy mdates of its official replies. -/
def officialIdsAndMdates (replies : List Review) :
    List String × List (String × List Int) :=
  replies.foldl
    (fun st r =>
      if isOfficialReview r ∧ ¬ r.id = "" then
        ((if r.id ∈ st.1 then st.1 else st.1 ++ [r.id]),
         if r.mdate = 0 then st.2 else odUpdate st.2 r.id (fun o => o.getD [] ++ [r.mdate]))
      else st)
    ([], [])

/-- `count_review_changes_by_type` (lines 124–159), returning
`(increase, decrease, modified-no-rating-change, never-edited)`.  Python
iterates the id set in unspecified order; only order-independent counts are
produced, so first-occurrence order is used here. -/
def count_review_changes_by_type (replies : List Review) : Nat × Nat × Nat × Nat :=
  let changes := get_rating_changes replies
  let st := officialIdsAndMdates replies
  st.1.foldl
    (fun c rid =>
      let mdates := (odFind st.2 rid).getD []
      if 1 < mdates.dedup.length then
        let rc := (odFind changes rid).getD 0
        if 0 < rc then (c.1 + 1, c.2.1, c.2.2.1, c.2.2.2)
        else if rc < 0 then (c.1, c.2.1 + 1, c.2.2.1, c.2.2.2)
        else (c.1, c.2.1, c.2.2.1 + 1, c.2.2.2)
      else (c.1, c.2.1, c.2.2.1, c.2.2.2 + 1))
    (0, 0, 0, 0)

/-! ### Order lemmas for the sort keys -/

theorem charListLe_refl (l : List Char) : charListLe l l = true := by
  induction l with
  | nil => rfl
  | cons a as ih => simp [charListLe, ih]

theorem charListLe_total (a b : List Char) :
    charListLe a b = true ∨ charListLe b a = true := by
  induction a generalizing b with
  | nil => left; rfl
  | cons x xs ih =>
    cases b with
    | nil => right; rfl
    | cons y ys =>
      simp only [charListLe]
      rcases Nat.lt_trichotomy x.toNat y.toNat with h | h | h
      · left; simp [h]
      · have h1 : ¬ x.toNat < y.toNat := by omega
        have h2 : ¬ y.toNat < x.toNat := by omega
        rcases ih ys with hh | hh
        · left; simp [h1, h2, hh]
        · right; simp [h1, h2, hh]
      · right; simp [h]

theorem charListLe_trans {a b c : List Char} (h1 : charListLe a b = true)
    (h2 : charListLe b c = true) : charListLe a c = true := by
  induction a generalizing b c with
  | nil => rfl
  | cons x xs ih =>
    cases b with
    | nil => simp [charListLe] at h1
    | cons y ys =>
      cases c with
      | nil => simp [charListLe] at h2
      | cons z zs =>
        simp only [charListLe] at h1 h2 ⊢
        by_cases hxy : x.toNat < y.toNat
        · by_cases hyz : y.toNat < z.toNat
          · simp [show x.toNat < z.toNat by omega]
          · by_cases hzy : z.toNat < y.toNat
            · simp [hyz, hzy] at h2
            · simp [show x.toNat < z.toNat by omega]
        · by_cases hyx : y.toNat < x.toNat
          · simp [hxy, hyx] at h1
          · by_cases hyz : y.toNat < z.toNat
            · simp [show x.toNat < z.toNat by omega]
            · by_cases hzy : z.toNat < y.toNat
              · simp [hyz, hzy] at h2
              · have hxz : ¬ x.toNat < z.toNat := by omega
                have hzx : ¬ z.toNat < x.toNat := by omega
                simp [hxy, hyx] at h1
                simp [hyz, hzy] at h2
                simp [hxz, hzx]
                exact ih h1 h2

theorem charListLe_antisymm {a b : List Char} (h1 : charListLe a b = true)
    (h2 : charListLe b a = true) : a = b := by
  induction a generalizing b with
  | nil => cases b with
    | nil => rfl
    | cons y ys => simp [charListLe] at h2
  | cons x xs ih =>
    cases b with
    | nil => simp [charListLe] at h1
    | cons y ys =>
      simp only [charListLe] at h1 h2
      by_cases hxy : x.toNat < y.toNat
      · have hyx : ¬ y.toNat < x.toNat := by omega
        simp [hxy, hyx] at h2
      · by_cases hyx : y.toNat < x.toNat
        · simp [hxy, hyx] at h1
        · have hx : x = y :=
            Char.eq_of_val_eq (UInt32.toNat.inj (show x.toNat = y.toNat by omega))
        
          simp [hxy, hyx] at h1 h2
          rw [hx, ih h1 h2]

theorem strLe_refl (a : String) : strLe a a := charListLe_refl _

theorem strLe_total (a b : String) : strLe a b ∨ strLe b a := charListLe_total _ _

theorem strLe_trans {a b c : String} (h1 : strLe a b) (h2 : strLe b c) : strLe a c :=
  charListLe_trans h1 h2

theorem strLe_antisymm {a b : String} (h1 : strLe a b) (h2 : strLe b a) : a = b := by
  have h := charListLe_antisymm h1 h2
  cases a with
  | mk da =>
    cases b with
    | mk db => exact congrArg String.mk h

theorem snapLe_refl (a : Snapshot) : snapLe a a := Or.inr ⟨Iff.rfl, strLe_refl _⟩

instance : IsTotal Snapshot snapLe := by
  constructor
  intro a b
  by_cases ha : a.1 = "merged" <;> by_cases hb : b.1 = "merged"
  · rcases strLe_total a.1 b.1 with h | h
    · exact Or.inl (Or.inr ⟨by simp [ha, hb], h⟩)
    · exact Or.inr (Or.inr ⟨by simp [ha, hb], h⟩)
  · exact Or.inl (Or.inl ⟨ha, hb⟩)
  · exact Or.inr (Or.inl ⟨hb, ha⟩)
  · rcases strLe_total a.1 b.1 with h | h
    · exact Or.inl (Or.inr ⟨by simp [ha, hb], h⟩)
    · exact Or.inr (Or.inr ⟨by simp [ha, hb], h⟩)

instance : IsTrans Snapshot snapLe := by
  constructor
  intro a b c h1 h2
  rcases h1 with ⟨ha, hb⟩ | ⟨hab, hle1⟩
  · rcases h2 with ⟨hb', _⟩ | ⟨hbc, hle2⟩
    · exact absurd hb' hb
    · exact Or.inl ⟨ha, fun hc => hb (hbc.mpr hc)⟩
  · rcases h2 with ⟨hb', hc⟩ | ⟨hbc, hle2⟩
    · exact Or.inl ⟨hab.mpr hb', hc⟩
    · exact Or.inr ⟨hab.trans hbc, strLe_trans hle1 hle2⟩

theorem snapLe_antisymm_fst {a b : Snapshot} (h1 : snapLe a b) (h2 : snapLe b a) :
    a.1 = b.1 := by
  rcases h1 with ⟨ha, hb⟩ | ⟨hab, hle1⟩
  · rcases h2 with ⟨hb', _⟩ | ⟨hba, _⟩
    · exact absurd hb' hb
    · exact absurd (hba.mpr ha) hb
  · rcases h2 with ⟨hb', ha'⟩ | ⟨_, hle2⟩
    · exact absurd (hab.mpr hb') ha'
    · exact strLe_antisymm hle1 hle2

instance : IsTotal Review reviewLe := by
  constructor; intro a b; unfold reviewLe; omega

instance : IsTrans Review reviewLe := by
  constructor; intro a b c h1 h2; unfold reviewLe at *; omega

instance : IsTotal Submission subLe := by
  constructor; intro a b; unfold subLe; omega

instance : IsTrans Submission subLe := by
  constructor; intro a b c h1 h2; unfold subLe at *; omega

instance : IsTotal (Int × Int) dateLe := by
  constructor; intro a b; unfold dateLe; omega

instance : IsTrans (Int × Int) dateLe := by
  constructor; intro a b c h1 h2; unfold dateLe at *; omega

/-! ### Ordered-dictionary lemmas -/

section OrderedDict

variable {κ β : Type _} [DecidableEq κ]

theorem odFind_odUpdate_self (l : List (κ × β)) (k : κ) (f : Option β → β) :
    odFind (odUpdate l k f) k = some (f (odFind l k)) := by
  induction l with
  | nil => simp [odFind, odUpdate]
  | cons p rest ih =>
    by_cases h : p.1 = k
    · simp [odUpdate, odFind, h]
    · simp [odUpdate, odFind, h, ih]

theorem odFind_odUpdate_ne (l : List (κ × β)) {k k' : κ} (h : ¬ k' = k) (f : Option β → β) :
    odFind (odUpdate l k f) k' = odFind l k' := by
  have hk : ¬ k = k' := fun hh => h hh.symm
  induction l with
  | nil => simp [odFind, odUpdate, hk]
  | cons p rest ih =>
    by_cases hp : p.1 = k
    · simp [odUpdate, odFind, hp, hk]
    · simp [odUpdate, odFind, hp, ih]

theorem odFind_eq_none_iff (l : List (κ × β)) (k : κ) :
    odFind l k = none ↔ k ∉ l.map Prod.fst := by
  induction l with
  | nil => simp [odFind]
  | cons p rest ih =>
    by_cases h : p.1 = k
    · simp [odFind, h]
    · have hk : ¬ k = p.1 := fun hh => h hh.symm
      simp [odFind, h, hk, ih]

theorem odUpdate_keys (l : List (κ × β)) (k : κ) (f : Option β → β) :
    (odUpdate l k f).map Prod.fst =
      if k ∈ l.map Prod.fst then l.map Prod.fst else l.map Prod.fst ++ [k] := by
  induction l with
  | nil => simp [odUpdate]
  | cons p rest ih =>
    by_cases h : p.1 = k
    · simp [odUpdate, h]
    · have hk : ¬ k = p.1 := fun hh => h hh.symm
      by_cases hm : k ∈ rest.map Prod.fst <;> simp [odUpdate, h, ih, hm, hk]

theorem odUpdate_keys_nodup {l : List (κ × β)} (h : (l.map Prod.fst).Nodup)
    (k : κ) (f : Option β → β) : ((odUpdate l k f).map Prod.fst).Nodup := by
  rw [odUpdate_keys]
  by_cases hm : k ∈ l.map Prod.fst
  · simpa [hm] using h
  · rw [if_neg hm]
    refine List.nodup_append.mpr ⟨h, List.nodup_singleton _, ?_⟩
    intro a ha hb
    simp at hb
    subst hb
    exact hm ha

theorem mem_of_odFind {l : List (κ × β)} {k : κ} {v : β} (h : odFind l k = some v) :
    (k, v) ∈ l := by
  induction l with
  | nil => simp [odFind] at h
  | cons p rest ih =>
    by_cases hp : p.1 = k
    · simp [odFind, hp] at h
      exact List.mem_cons.mpr (Or.inl (by rw [← hp, ← h]))
    · simp [odFind, hp] at h
      exact List.mem_cons_of_mem _ (ih h)

theorem odFind_of_mem {l : List (κ × β)} (hnd : (l.map Prod.fst).Nodup) {k : κ} {v : β}
    (hm : (k, v) ∈ l) : odFind l k = some v := by
  induction l with
  | nil => simp at hm
  | cons p rest ih =>
    have hnd' := hnd
    simp only [List.map_cons, List.nodup_cons] at hnd'
    rcases List.mem_cons.mp hm with h | h
    · simp [odFind, ← h]
    · have hk : ¬ p.1 = k := by
        intro hh
        refine hnd'.1 ?_
        rw [hh]
        exact List.mem_map.mpr ⟨(k, v), h, rfl⟩
      simp [odFind, hk, ih hnd'.2 h]

theorem odUpdate_eq_self {l : List (κ × β)} {k : κ} {v : β} {f : Option β → β}
    (hfind : odFind l k = some v) (hv : f (some v) = v) : odUpdate l k f = l := by
  induction l with
  | nil => simp [odFind] at hfind
  | cons p rest ih =>
    by_cases hp : p.1 = k
    · simp [odFind, hp] at hfind
      simp only [odUpdate, if_pos hp]
      rw [hfind, hv, ← hfind]
    · simp [odFind, hp] at hfind
      simp [odUpdate, hp, ih hfind]

theorem odUpdate_forall {P : κ × β → Prop} {l : List (κ × β)} {k : κ} {f : Option β → β}
    (hl : ∀ q ∈ l, P q) (hf : ∀ o, P (k, f o)) : ∀ q ∈ odUpdate l k f, P q := by
  induction l with
  | nil =>
    intro q hq
    simp [odUpdate] at hq
    exact hq ▸ hf none
  | cons p rest ih =>
    intro q hq
    by_cases hp : p.1 = k
    · simp only [odUpdate, if_pos hp] at hq
      rcases List.mem_cons.mp hq with h | h
      · subst h; exact hp ▸ hf (some p.2)
      · exact hl q (List.mem_cons_of_mem _ h)
    · simp only [odUpdate, if_neg hp] at hq
      rcases List.mem_cons.mp hq with h | h
      · exact hl q (h ▸ List.mem_cons_self _ _)
      · exact ih (fun x hx => hl x (List.mem_cons_of_mem _ hx)) q h

end OrderedDict

/-! ### Metadata-source selection lemmas -/

theorem sortSnapshots_pairwise (l : List Snapshot) : (sortSnapshots l).Pairwise snapLe :=
  List.sorted_insertionSort snapLe l

theorem sortSnapshots_perm (l : List Snapshot) : (sortSnapshots l).Perm l :=
  List.perm_insertionSort snapLe l

theorem getLast?_max {l : List Snapshot} (hp : l.Pairwise snapLe) {g : Snapshot}
    (hg : l.getLast? = some g) : ∀ x ∈ l, snapLe x g := by
  induction l with
  | nil => simp at hg
  | cons a rest ih =>
    cases rest with
    | nil =>
      simp at hg
      intro x hx
      simp at hx
      rw [hx, hg]
      exact snapLe_refl g
    | cons b rest' =>
      rw [List.getLast?_cons_cons] at hg
      have hp' := List.pairwise_cons.mp hp
      intro x hx
      rcases List.mem_cons.mp hx with h | h
      · subst h
        exact hp'.1 g (List.mem_of_getLast?_eq_some hg)
      · exact ih hp'.2 hg x h

theorem find?_max_aux {m : List Snapshot} (hm : m.Pairwise (fun a b => snapLe b a))
    {q : Snapshot} (hq : m.find? (fun p => decide (¬ p.1 = "merged")) = some q) :
    ∀ x ∈ m, ¬ x.1 = "merged" → snapLe x q := by
  induction m with
  | nil => simp at hq
  | cons a rest ih =>
    have hm' := List.pairwise_cons.mp hm
    by_cases ha : a.1 = "merged"
    · rw [List.find?_cons_of_neg _ (by simpa using ha)] at hq
      intro x hx hxm
      rcases List.mem_cons.mp hx with h | h
      · rw [h] at hxm; exact absurd ha hxm
      · exact ih hm'.2 hq x h hxm
    · rw [List.find?_cons_of_pos _ (by simpa using ha)] at hq
      injection hq with hq
      subst hq
      intro x hx _
      rcases List.mem_cons.mp hx with h | h
      · rw [h]; exact snapLe_refl _
      · exact hm'.1 x h

theorem findLatestDated_max {l : List Snapshot} (hp : l.Pairwise snapLe) {q : Snapshot}
    (hq : findLatestDated l = some q) : ∀ x ∈ l, ¬ x.1 = "merged" → snapLe x q := by
  unfold findLatestDated at hq
  have hm : l.reverse.Pairwise (fun a b => snapLe b a) := List.pairwise_reverse.mpr hp
  intro x hx hxm
  exact find?_max_aux hm hq x (List.mem_reverse.mpr hx) hxm

theorem findLatestDated_not_merged {l : List Snapshot} {q : Snapshot}
    (hq : findLatestDated l = some q) : ¬ q.1 = "merged" := by
  have := List.find?_some hq
  simpa using this

theorem findLatestDated_mem {l : List Snapshot} {q : Snapshot}
    (hq : findLatestDated l = some q) : q ∈ l :=
  List.mem_reverse.mp (List.mem_of_find?_eq_some hq)

theorem selectBase_mem {s : List Snapshot} {b : Snapshot} (h : selectBase s = .ok b) :
    b ∈ s := by
  unfold selectBase at h
  split at h
  next p hf =>
    split at h
    · split at h
      next q hg =>
        injection h with h
        exact h ▸ List.mem_of_getLast?_eq_some hg
      next hg => exact absurd h (by simp)
    · injection h with h
      exact h ▸ findLatestDated_mem hf
  next hf =>
    split at h
    next q hg =>
      injection h with h
      exact h ▸ List.mem_of_getLast?_eq_some hg
    next hg => exact absurd h (by simp)

theorem selectBase_ok_of_ne_nil {s : List Snapshot} (h : ¬ s = []) :
    ∃ b, selectBase s = .ok b := by
  obtain ⟨g, hg⟩ : ∃ g, s.getLast? = some g := by
    cases hg : s.getLast? with
    | some q => exact ⟨q, rfl⟩
    | none => exact absurd (List.getLast?_eq_none_iff.mp hg) h
  unfold selectBase
  cases hf : findLatestDated s with
  | some p =>
    by_cases he : p.2.isEmpty
    · exact ⟨g, by simp [he, hg]⟩
    · exact ⟨p, by simp [he]⟩
  | none => exact ⟨g, by simp [hg]⟩

theorem base_is_max {s : List Snapshot} (hp : s.Pairwise snapLe) {b : Snapshot}
    (h : selectBase s = .ok b) : ∀ x ∈ s, snapLe x b := by
  unfold selectBase at h
  split at h
  next p hf =>
    split at h
    · split at h
      next q hg =>
        injection h with h
        exact h ▸ getLast?_max hp hg
      next hg => exact absurd h (by simp)
    · injection h with h
      subst h
      intro x hx
      by_cases hxm : x.1 = "merged"
      · exact Or.inl ⟨hxm, findLatestDated_not_merged hf⟩
      · exact findLatestDated_max hp hf x hx hxm
  next hf =>
    split at h
    next q hg =>
      injection h with h
      exact h ▸ getLast?_max hp hg
    next hg => exact absurd h (by simp)

theorem base_not_merged {s : List Snapshot} (hp : s.Pairwise snapLe) {b : Snapshot}
    (h : selectBase s = .ok b) {x : Snapshot} (hx : x ∈ s) (hxm : ¬ x.1 = "merged") :
    ¬ b.1 = "merged" := by
  intro hb
  rcases base_is_max hp h x hx with ⟨hxm2, _⟩ | ⟨hiff, _⟩
  · exact hxm hxm2
  · exact hxm (hiff.mpr hb)

theorem merge_reviews_eq_ok {L : List Snapshot} {res : List Submission} :
    merge_reviews L = .ok res ↔
      ∃ b, selectBase (sortSnapshots L) = .ok b ∧
        res = List.insertionSort subLe
          (attachReviews (collectAll (sortSnapshots L)) (seedMerged b.2)) := by
  unfold merge_reviews
  cases h : selectBase (sortSnapshots L) with
  | ok b => simp [h, eq_comm]
  | error e => simp [h]

theorem merge_reviews_nil : merge_reviews [] = .error .EmptyInputError := rfl

/-! ### Seeding and attachment lemmas -/

theorem seedMerged_sound (base : List Submission) :
    ∀ e ∈ seedMerged base, e.2 ∈ base ∧ e.1 = e.2.id ∧ ¬ e.2.id = "" := by
  have key : ∀ (l : List Submission) (acc : List (String × Submission)),
      (∀ s ∈ l, s ∈ base) →
      (∀ e ∈ acc, e.2 ∈ base ∧ e.1 = e.2.id ∧ ¬ e.2.id = "") →
      ∀ e ∈ l.foldl (fun m s => if s.id = "" then m else odUpdate m s.id (fun _ => s)) acc,
        e.2 ∈ base ∧ e.1 = e.2.id ∧ ¬ e.2.id = "" := by
    intro l
    induction l with
    | nil => intro acc _ hacc e he; exact hacc e he
    | cons s rest ih =>
      intro acc hsub hacc e he
      simp only [List.foldl_cons] at he
      refine ih _ (fun x hx => hsub x (List.mem_cons_of_mem _ hx)) ?_ e he
      by_cases hid : s.id = ""
      · simpa [hid] using hacc
      · rw [if_neg hid]
        intro q hq
        refine odUpdate_forall hacc (fun o => ?_) q hq
        exact ⟨hsub s (List.mem_cons_self _ _), rfl, hid⟩
  exact key base [] (fun s hs => hs) (by simp)

theorem seedMerged_keys_nodup (base : List Submission) :
    ((seedMerged base).map Prod.fst).Nodup := by
  have key : ∀ (l : List Submission) (acc : List (String × Submission)),
      (acc.map Prod.fst).Nodup →
      ((l.foldl (fun m s => if s.id = "" then m else odUpdate m s.id (fun _ => s)) acc).map
        Prod.fst).Nodup := by
    intro l
    induction l with
    | nil => intro acc h; exact h
    | cons s rest ih =>
      intro acc h
      simp only [List.foldl_cons]
      refine ih _ ?_
      by_cases hid : s.id = ""
      · simpa [hid] using h
      · rw [if_neg hid]
        exact odUpdate_keys_nodup h _ _
  exact key base [] (by simp)

theorem attachReviews_mem {coll : List (String × List (String × List Review))}
    {m : List (String × Submission)} {s : Submission} (h : s ∈ attachReviews coll m) :
    ∃ e ∈ m, s.id = e.2.id ∧ s.number = e.2.number ∧ s.title = e.2.title ∧
      ((odFind coll e.1 = none ∧ s = e.2) ∨
       ∃ groups, odFind coll e.1 = some groups ∧
         s = { e.2 with
                directReplies := List.insertionSort reviewLe (flattenGroups groups) }) := by
  unfold attachReviews at h
  rcases List.mem_map.mp h with ⟨e, hem, heq⟩
  cases hf : odFind coll e.1 with
  | some groups =>
    rw [hf] at heq
    refine ⟨e, hem, ?_, ?_, ?_, Or.inr ⟨groups, hf, heq.symm⟩⟩ <;> rw [← heq]
  | none =>
    rw [hf] at heq
    refine ⟨e, hem, ?_, ?_, ?_, Or.inl ⟨hf, heq.symm⟩⟩ <;> rw [← heq]

/-! ### The version-store invariant -/

/-- The deduplication key `(version, mdate)` of a review entry. -/
def vmKey (r : Review) : Int × Int := (r.version, r.mdate)

/-- The identity of one observed review state: `(id, version, mdate)`. -/
def tripleOf (r : Review) : String × Int × Int := (r.id, r.version, r.mdate)

/-- Dedup keys contributed to review id `rid` by a raw reply list. -/
def rvRaw (rs : List Review) (rid : String) : List (Int × Int) :=
  rs.filterMap (fun r => if r.id = rid ∧ ¬ r.id = "" then some (vmKey r) else none)

/-- Dedup keys contributed to `(sid, rid)` by a raw submission list. -/
def vmRaw (S : List Submission) (sid rid : String) : List (Int × Int) :=
  S.flatMap (fun s => if s.id = sid ∧ ¬ s.id = "" then rvRaw s.directReplies rid else [])

/-- Invariant of one review-id bucket relative to the dedup-key set `X` of
the input processed so far. -/
def bucketInv (o : Option (List Review)) (rid : String) (X : Finset (Int × Int)) : Prop :=
  match o with
  | some vs => ¬ rid = "" ∧ vs ≠ [] ∧ (∀ r ∈ vs, r.id = rid) ∧
      (vs.map vmKey).Nodup ∧ (vs.map vmKey).toFinset = X
  | none => X = ∅

/-- Invariant of one submission's review dict relative to the dedup-key sets
`F` of the input processed so far. -/
def DictInv (d : List (String × List Review)) (F : String → Finset (Int × Int)) : Prop :=
  ∀ rid, bucketInv (odFind d rid) rid (F rid)

theorem rvRaw_singleton_self (r : Review) (hid : ¬ r.id = "") :
    rvRaw [r] r.id = [vmKey r] := by
  simp [rvRaw, hid]

theorem rvRaw_singleton_ne {r : Review} {rid : String}
    (h : ¬ (r.id = rid ∧ ¬ r.id = "")) : rvRaw [r] rid = [] := by
  simp only [rvRaw, List.filterMap_cons, List.filterMap_nil, if_neg h]

theorem rvRaw_cons (r : Review) (rs : List Review) (rid : String) :
    rvRaw (r :: rs) rid =
      (if r.id = rid ∧ ¬ r.id = "" then [vmKey r] else []) ++ rvRaw rs rid := by
  by_cases h : r.id = rid ∧ ¬ r.id = ""
  · simp only [rvRaw, List.filterMap_cons, if_pos h]
    rfl
  · simp only [rvRaw, List.filterMap_cons, if_neg h]
    rfl

theorem bucketInv_put {o : Option (List Review)} {rid : String} {X : Finset (Int × Int)}
    {r : Review} (h : bucketInv o rid X) (hr : r.id = rid) (hid : ¬ r.id = "") :
    bucketInv (some (bucketPut o r)) rid (X ∪ {vmKey r}) := by
  cases o with
  | none =>
    have hX : X = ∅ := h
    subst hX
    have hput : bucketPut none r = [r] := by simp [bucketPut]
    rw [hput]
    refine ⟨hr ▸ hid, by simp, ?_, by simp, by simp⟩
    intro x hx
    simp at hx
    rw [hx, hr]
  | some vs =>
    obtain ⟨h1, h2, h3, h4, h5⟩ := h
    by_cases hdup :
        vs.any (fun e => decide (e.version = r.version ∧ e.mdate = r.mdate)) = true
    · have hput : bucketPut (some vs) r = vs := by
        simp only [bucketPut, Option.getD_some]
        rw [if_pos hdup]
      rw [hput]
      have hkX : vmKey r ∈ X := by
        rcases List.any_eq_true.mp hdup with ⟨e, hev, hep⟩
        have hep' := of_decide_eq_true hep
        have hke : vmKey e = vmKey r := by simp [vmKey, hep'.1, hep'.2]
        rw [← h5]
        exact List.mem_toFinset.mpr (hke ▸ List.mem_map.mpr ⟨e, hev, rfl⟩)
      refine ⟨h1, h2, h3, h4, ?_⟩
      rw [h5]
      exact (Finset.union_eq_left.mpr (Finset.singleton_subset_iff.mpr hkX)).symm
    · have hput : bucketPut (some vs) r = vs ++ [r] := by
        simp only [bucketPut, Option.getD_some]
        rw [if_neg hdup]
      rw [hput]
      have hnomem : vmKey r ∉ vs.map vmKey := by
        intro hm
        rcases List.mem_map.mp hm with ⟨e, hev, hek⟩
        refine hdup (List.any_eq_true.mpr ⟨e, hev, decide_eq_true ?_⟩)
        exact ⟨congrArg Prod.fst hek, congrArg Prod.snd hek⟩
      refine ⟨h1, by simp, ?_, ?_, ?_⟩
      · intro x hx
        rcases List.mem_append.mp hx with hx | hx
        · exact h3 x hx
        · simp at hx
          rw [hx, hr]
      · rw [List.map_append]
        refine List.nodup_append.mpr ⟨h4, by simp, ?_⟩
        intro a ha hb
        simp at hb
        rw [hb] at ha
        exact hnomem ha
      · rw [List.map_append, List.toFinset_append, h5]
        simp

theorem dictInv_insertReview {d : List (String × List Review)}
    {F : String → Finset (Int × Int)} (hk : (d.map Prod.fst).Nodup) (hinv : DictInv d F)
    (r : Review) :
    ((insertReview d r).map Prod.fst).Nodup ∧
    DictInv (insertReview d r) (fun rid => F rid ∪ (rvRaw [r] rid).toFinset) := by
  by_cases hid : r.id = ""
  · rw [insertReview, if_pos hid]
    refine ⟨hk, fun rid => ?_⟩
    show bucketInv (odFind d rid) rid (F rid ∪ (rvRaw [r] rid).toFinset)
    rw [rvRaw_singleton_ne (fun hh => hh.2 hid)]
    simpa using hinv rid
  · rw [insertReview, if_neg hid]
    refine ⟨odUpdate_keys_nodup hk _ _, fun rid => ?_⟩
    by_cases hr : rid = r.id
    · subst hr
      rw [odFind_odUpdate_self]
      show bucketInv (some (bucketPut (odFind d r.id) r)) r.id
        (F r.id ∪ (rvRaw [r] r.id).toFinset)
      rw [rvRaw_singleton_self r hid]
      have := bucketInv_put (hinv r.id) rfl hid
      simpa using this
    · rw [odFind_odUpdate_ne _ hr]
      show bucketInv (odFind d rid) rid (F rid ∪ (rvRaw [r] rid).toFinset)
      rw [rvRaw_singleton_ne (fun hh => hr hh.1.symm)]
      simpa using hinv rid

theorem DictInv.congr {d : List (String × List Review)} {F F' : String → Finset (Int × Int)}
    (h : DictInv d F) (hFF : ∀ rid, F rid = F' rid) : DictInv d F' :=
  fun rid => hFF rid ▸ h rid

theorem dictInv_fold (rs : List Review) :
    ∀ {d : List (String × List Review)} {F : String → Finset (Int × Int)},
      (d.map Prod.fst).Nodup → DictInv d F →
      ((rs.foldl insertReview d).map Prod.fst).Nodup ∧
      DictInv (rs.foldl insertReview d)
        (fun rid => F rid ∪ (rvRaw rs rid).toFinset) := by
  induction rs with
  | nil =>
    intro d F hk hinv
    refine ⟨hk, fun rid => ?_⟩
    show bucketInv (odFind d rid) rid (F rid ∪ (rvRaw [] rid).toFinset)
    have hnil : rvRaw [] rid = [] := rfl
    rw [hnil]
    simpa using hinv rid
  | cons r rest ih =>
    intro d F hk hinv
    simp only [List.foldl_cons]
    obtain ⟨hk1, hinv1⟩ := dictInv_insertReview hk hinv r
    obtain ⟨hk2, hinv2⟩ := ih hk1 hinv1
    refine ⟨hk2, fun rid => ?_⟩
    show bucketInv (odFind (rest.foldl insertReview (insertReview d r)) rid) rid
      (F rid ∪ (rvRaw (r :: rest) rid).toFinset)
    have hsing : rvRaw [r] rid = (if r.id = rid ∧ ¬ r.id = "" then [vmKey r] else []) := by
      have h0 : rvRaw [] rid = [] := rfl
      rw [rvRaw_cons, h0, List.append_nil]
    have heq : F rid ∪ (rvRaw (r :: rest) rid).toFinset =
        (F rid ∪ (rvRaw [r] rid).toFinset) ∪ (rvRaw rest rid).toFinset := by
      rw [rvRaw_cons, List.toFinset_append, hsing, Finset.union_assoc]
    rw [heq]
    exact hinv2 rid

/-! ### The version-store invariant, per submission -/

/-- Invariant of the whole version store relative to the submissions
processed so far. -/
def CollInv (c : List (String × List (String × List Review))) (S : List Submission) : Prop :=
  ((c.map Prod.fst).Nodup) ∧
  (∀ sid, (odFind c sid).isSome ↔ (¬ sid = "" ∧ sid ∈ S.map Submission.id)) ∧
  (∀ sid d, odFind c sid = some d →
    (d.map Prod.fst).Nodup ∧ DictInv d (fun rid => (vmRaw S sid rid).toFinset))

theorem vmRaw_append (S T : List Submission) (sid rid : String) :
    vmRaw (S ++ T) sid rid = vmRaw S sid rid ++ vmRaw T sid rid := by
  simp [vmRaw]

theorem vmRaw_singleton_none {s : Submission} {sid : String}
    (h : ¬ (s.id = sid ∧ ¬ s.id = "")) (rid : String) : vmRaw [s] sid rid = [] := by
  simp only [vmRaw, List.flatMap_cons, List.flatMap_nil, List.append_nil, if_neg h]

theorem vmRaw_singleton_self {s : Submission} (hid : ¬ s.id = "") (rid : String) :
    vmRaw [s] s.id rid = rvRaw s.directReplies rid := by
  have h0 : vmRaw [s] s.id rid =
      (if s.id = s.id ∧ ¬ s.id = "" then rvRaw s.directReplies rid else []) ++ [] := rfl
  rw [h0, if_pos (⟨rfl, hid⟩ : s.id = s.id ∧ ¬ s.id = ""), List.append_nil]

theorem vmRaw_nil_of_not_mem {S : List Submission} {sid : String}
    (h : sid ∉ S.map Submission.id) (rid : String) : vmRaw S sid rid = [] := by
  rw [vmRaw, List.flatMap_eq_nil_iff]
  intro s hs
  rw [if_neg]
  rintro ⟨h1, -⟩
  exact h (List.mem_map.mpr ⟨s, hs, h1⟩)

theorem collInv_insertSubmission {c : List (String × List (String × List Review))}
    {S : List Submission} (h : CollInv c S) (s : Submission) :
    CollInv (insertSubmission c s) (S ++ [s]) := by
  obtain ⟨hk, hiff, hval⟩ := h
  by_cases hid : s.id = ""
  · rw [insertSubmission, if_pos hid]
    refine ⟨hk, ?_, ?_⟩
    · intro sid
      rw [hiff sid]
      constructor
      · rintro ⟨h1, h2⟩
        exact ⟨h1, by simp [h2]⟩
      · rintro ⟨h1, h2⟩
        refine ⟨h1, ?_⟩
        simp only [List.map_append, List.mem_append, List.map_cons, List.map_nil,
          List.mem_singleton] at h2
        rcases h2 with h2 | h2
        · exact h2
        · rw [h2] at h1
          exact absurd hid h1
    · intro sid d hf
      obtain ⟨hnd, hdi⟩ := hval sid d hf
      refine ⟨hnd, hdi.congr (fun rid => ?_)⟩
      rw [vmRaw_append]
      rw [vmRaw_singleton_none (fun hh => hh.2 hid)]
      simp
  · rw [insertSubmission, if_neg hid]
    refine ⟨odUpdate_keys_nodup hk _ _, ?_, ?_⟩
    · intro sid
      by_cases hs : sid = s.id
      · subst hs
        rw [odFind_odUpdate_self]
        constructor
        · intro _
          exact ⟨hid, by simp⟩
        · intro _
          simp
      · rw [odFind_odUpdate_ne _ hs, hiff sid]
        constructor
        · rintro ⟨h1, h2⟩
          exact ⟨h1, by simp [h2]⟩
        · rintro ⟨h1, h2⟩
          simp only [List.map_append, List.mem_append, List.map_cons, List.map_nil,
            List.mem_singleton] at h2
          rcases h2 with h2 | h2
          · exact ⟨h1, h2⟩
          · exact absurd h2 hs
    · intro sid d hf
      by_cases hs : sid = s.id
      · subst hs
        rw [odFind_odUpdate_self] at hf
        injection hf with hf
        cases hfc : odFind c s.id with
        | some d0 =>
          obtain ⟨hnd0, hdi0⟩ := hval s.id d0 hfc
          have hD : d = s.directReplies.foldl insertReview d0 := by
            rw [← hf, hfc]
            rfl
          obtain ⟨hnd1, hdi1⟩ := dictInv_fold s.directReplies hnd0 hdi0
          rw [hD]
          refine ⟨hnd1, hdi1.congr (fun rid => ?_)⟩
          rw [vmRaw_append, vmRaw_singleton_self hid, List.toFinset_append]
        | none =>
          have hmem : s.id ∉ S.map Submission.id := by
            intro hm
            have := (hiff s.id).mpr ⟨hid, hm⟩
            rw [hfc] at this
            simp at this
          have hD : d = s.directReplies.foldl insertReview [] := by
            rw [← hf, hfc]
            rfl
          have hdi0 : DictInv ([] : List (String × List Review))
              (fun rid => (vmRaw S s.id rid).toFinset) := by
            intro rid
            show bucketInv none rid _
            show (vmRaw S s.id rid).toFinset = ∅
            rw [vmRaw_nil_of_not_mem hmem]
            rfl
          obtain ⟨hnd1, hdi1⟩ := dictInv_fold s.directReplies (by simp) hdi0
          rw [hD]
          refine ⟨hnd1, hdi1.congr (fun rid => ?_)⟩
          rw [vmRaw_append, vmRaw_singleton_self hid, List.toFinset_append]
      · rw [odFind_odUpdate_ne _ hs] at hf
        obtain ⟨hnd, hdi⟩ := hval sid d hf
        refine ⟨hnd, hdi.congr (fun rid => ?_)⟩
        rw [vmRaw_append, vmRaw_singleton_none (fun hh => hs (hh.1.symm))]
        simp

theorem collInv_foldl (S : List Submission) :
    CollInv (S.foldl insertSubmission []) S := by
  induction S using List.reverseRecOn with
  | nil =>
    refine ⟨by simp, ?_, ?_⟩
    · intro sid
      simp [odFind]
    · intro sid d hf
      simp [odFind] at hf
  | append_singleton S s ih =>
    rw [List.foldl_append]
    simpa using collInv_insertSubmission ih s

theorem collectAll_eq (L : List Snapshot) :
    collectAll L = (L.flatMap (fun p => p.2)).foldl insertSubmission [] := by
  have key : ∀ (l : List Snapshot) (init : List (String × List (String × List Review))),
      l.foldl (fun c p => p.2.foldl insertSubmission c) init
        = (l.flatMap (fun p => p.2)).foldl insertSubmission init := by
    intro l
    induction l with
    | nil => intro init; rfl
    | cons a rest ih =>
      intro init
      simp only [List.foldl_cons, List.flatMap_cons, List.foldl_append]
      exact ih _
  exact key L []

theorem collInv_collectAll (L : List Snapshot) :
    CollInv (collectAll L) (L.flatMap (fun p => p.2)) := by
  rw [collectAll_eq]
  exact collInv_foldl _

/-! ### Characterizing the flattened review lists -/

/-- The observation triples `(rid, version, mdate)` contributed to
submission id `sid` by a raw submission list. -/
def trRaw (S : List Submission) (sid : String) : List (String × Int × Int) :=
  S.flatMap (fun s =>
    if s.id = sid ∧ ¬ s.id = "" then
      s.directReplies.filterMap (fun r => if ¬ r.id = "" then some (tripleOf r) else none)
    else [])

/-- The set of observation triples the whole snapshot list contributes to
submission id `sid`. -/
def trSet (L : List Snapshot) (sid : String) : Finset (String × Int × Int) :=
  (trRaw (L.flatMap (fun p => p.2)) sid).toFinset

theorem mem_trRaw {S : List Submission} {sid : String} {x : String × Int × Int} :
    x ∈ trRaw S sid ↔
      ∃ s ∈ S, s.id = sid ∧ ¬ s.id = "" ∧
        ∃ r ∈ s.directReplies, ¬ r.id = "" ∧ x = tripleOf r := by
  rw [trRaw, List.mem_flatMap]
  constructor
  · rintro ⟨s, hs, hx⟩
    by_cases h : s.id = sid ∧ ¬ s.id = ""
    · rw [if_pos h] at hx
      rcases List.mem_filterMap.mp hx with ⟨r, hr, hxr⟩
      by_cases hrid : ¬ r.id = ""
      · rw [if_pos hrid] at hxr
        injection hxr with hxr
        exact ⟨s, hs, h.1, h.2, r, hr, hrid, hxr.symm⟩
      · rw [if_neg hrid] at hxr
        exact absurd hxr (by simp)
    · rw [if_neg h] at hx
      simp at hx
  · rintro ⟨s, hs, h1, h2, r, hr, hrid, hx⟩
    refine ⟨s, hs, ?_⟩
    rw [if_pos ⟨h1, h2⟩]
    exact List.mem_filterMap.mpr ⟨r, hr, by rw [if_pos hrid, hx]⟩

theorem mem_vmRaw {S : List Submission} {sid rid : String} {k : Int × Int} :
    k ∈ vmRaw S sid rid ↔
      ∃ s ∈ S, s.id = sid ∧ ¬ s.id = "" ∧
        ∃ r ∈ s.directReplies, r.id = rid ∧ ¬ r.id = "" ∧ k = vmKey r := by
  rw [vmRaw, List.mem_flatMap]
  constructor
  · rintro ⟨s, hs, hk⟩
    by_cases h : s.id = sid ∧ ¬ s.id = ""
    · rw [if_pos h] at hk
      rcases List.mem_filterMap.mp hk with ⟨r, hr, hkr⟩
      by_cases hrid : r.id = rid ∧ ¬ r.id = ""
      · rw [if_pos hrid] at hkr
        injection hkr with hkr
        exact ⟨s, hs, h.1, h.2, r, hr, hrid.1, hrid.2, hkr.symm⟩
      · rw [if_neg hrid] at hkr
        exact absurd hkr (by simp)
    · rw [if_neg h] at hk
      simp at hk
  · rintro ⟨s, hs, h1, h2, r, hr, hr1, hr2, hk⟩
    refine ⟨s, hs, ?_⟩
    rw [if_pos ⟨h1, h2⟩]
    exact List.mem_filterMap.mpr ⟨r, hr, by rw [if_pos ⟨hr1, hr2⟩, hk]⟩

theorem trRaw_iff_vmRaw {S : List Submission} {sid rid : String} {v m : Int} :
    (rid, v, m) ∈ trRaw S sid ↔ ((v, m) ∈ vmRaw S sid rid ∧ ¬ rid = "") := by
  rw [mem_trRaw, mem_vmRaw]
  constructor
  · rintro ⟨s, hs, h1, h2, r, hr, hrid, hx⟩
    have hid : r.id = rid := (congrArg Prod.fst hx).symm
    have hvm : (v, m) = vmKey r := congrArg Prod.snd hx
    exact ⟨⟨s, hs, h1, h2, r, hr, hid, hrid, hvm⟩, hid ▸ hrid⟩
  · rintro ⟨⟨s, hs, h1, h2, r, hr, hr1, hr2, hk⟩, -⟩
    refine ⟨s, hs, h1, h2, r, hr, hr2, ?_⟩
    rw [tripleOf, ← hr1]
    rw [vmKey] at hk
    injection hk with e1 e2
    rw [e1, e2]

theorem flattenGroups_eq (groups : List (String × List Review)) :
    flattenGroups groups = groups.flatMap (fun g => g.2) := by
  have key : ∀ (l : List (String × List Review)) (acc : List Review),
      l.foldl (fun acc g => acc ++ g.2) acc = acc ++ l.flatMap (fun g => g.2) := by
    intro l
    induction l with
    | nil => intro acc; simp
    | cons g rest ih =>
      intro acc
      simp only [List.foldl_cons, List.flatMap_cons, ih, List.append_assoc]
  have := key groups []
  simpa [flattenGroups] using this

theorem bucket_of_mem {c : List (String × List (String × List Review))}
    {S : List Submission} (hinv : CollInv c S) {sid : String}
    {d : List (String × List Review)} (hf : odFind c sid = some d)
    {g : String × List Review} (hg : g ∈ d) :
    ¬ g.1 = "" ∧ g.2 ≠ [] ∧ (∀ r ∈ g.2, r.id = g.1) ∧ (g.2.map vmKey).Nodup ∧
      (g.2.map vmKey).toFinset = (vmRaw S sid g.1).toFinset := by
  obtain ⟨hk, hiff, hval⟩ := hinv
  obtain ⟨hnd, hdi⟩ := hval sid d hf
  have hfg : odFind d g.1 = some g.2 := odFind_of_mem hnd hg
  have hb := hdi g.1
  rw [hfg] at hb
  exact hb

theorem flatten_spec {c : List (String × List (String × List Review))}
    {S : List Submission} (hinv : CollInv c S) {sid : String}
    {d : List (String × List Review)} (hf : odFind c sid = some d) :
    (∀ r ∈ flattenGroups d, ¬ r.id = "") ∧
    ((flattenGroups d).map tripleOf).Nodup ∧
    ((flattenGroups d).map tripleOf).toFinset = (trRaw S sid).toFinset := by
  have hdk : (d.map Prod.fst).Nodup := ((hinv.2.2) sid d hf).1
  rw [flattenGroups_eq]
  refine ⟨?_, ?_, ?_⟩
  · intro r hr
    rcases List.mem_flatMap.mp hr with ⟨g, hg, hrg⟩
    obtain ⟨h1, -, h3, -, -⟩ := bucket_of_mem hinv hf hg
    rw [h3 r hrg]
    exact h1
  · rw [List.map_flatMap]
    refine List.nodup_flatMap.mpr ⟨?_, ?_⟩
    · intro g hg
      obtain ⟨-, -, -, h4, -⟩ := bucket_of_mem hinv hf hg
      have hcomp : g.2.map vmKey = (g.2.map tripleOf).map Prod.snd := by
        rw [List.map_map]
        rfl
      rw [hcomp] at h4
      exact h4.of_map _
    · have hpair : d.Pairwise (fun g g' => g.1 ≠ g'.1) := List.pairwise_map.mp hdk
      refine hpair.imp_of_mem ?_
      intro g g' hg hg' hne x hx hx'
      obtain ⟨-, -, h3, -, -⟩ := bucket_of_mem hinv hf hg
      obtain ⟨-, -, h3', -, -⟩ := bucket_of_mem hinv hf hg'
      rcases List.mem_map.mp hx with ⟨r, hr, hxr⟩
      rcases List.mem_map.mp hx' with ⟨r', hr', hxr'⟩
      refine hne ?_
      rw [← h3 r hr, ← h3' r' hr']
      have : r.id = r'.id := by
        have e1 : x.1 = r.id := by rw [← hxr]; rfl
        have e2 : x.1 = r'.id := by rw [← hxr']; rfl
        rw [← e1, ← e2]
      exact this
  · ext x
    rw [List.mem_toFinset, List.mem_toFinset]
    constructor
    · intro hx
      rcases List.mem_map.mp hx with ⟨r, hrf, hxr⟩
      rcases List.mem_flatMap.mp hrf with ⟨g, hg, hrg⟩
      obtain ⟨h1, -, h3, -, h5⟩ := bucket_of_mem hinv hf hg
      have hkmem : vmKey r ∈ (vmRaw S sid g.1).toFinset := by
        rw [← h5]
        exact List.mem_toFinset.mpr (List.mem_map.mpr ⟨r, hrg, rfl⟩)
      have hx1 : x = (g.1, vmKey r) := by
        rw [← hxr, ← h3 r hrg]
        rfl
      rw [hx1]
      exact trRaw_iff_vmRaw.mpr ⟨List.mem_toFinset.mp hkmem, h1⟩
    · intro hx
      obtain ⟨rid, v, m⟩ := x
      obtain ⟨hvm, hrid⟩ := trRaw_iff_vmRaw.mp hx
      obtain ⟨hk, hiff, hval⟩ := hinv
      obtain ⟨hnd, hdi⟩ := hval sid d hf
      have hb := hdi rid
      cases hfd : odFind d rid with
      | none =>
        rw [hfd] at hb
        have : (vmRaw S sid rid).toFinset = ∅ := hb
        rw [List.toFinset_eq_empty_iff] at this
        rw [this] at hvm
        simp at hvm
      | some vs =>
        rw [hfd] at hb
        obtain ⟨b1, b2, b3, b4, b5⟩ := hb
        have : (v, m) ∈ vs.map vmKey := by
          have : (v, m) ∈ (vs.map vmKey).toFinset := by
            rw [b5]
            exact List.mem_toFinset.mpr hvm
          exact List.mem_toFinset.mp this
        rcases List.mem_map.mp this with ⟨r, hrv, hkr⟩
        refine List.mem_map.mpr ⟨r, ?_, ?_⟩
        · exact List.mem_flatMap.mpr ⟨(rid, vs), mem_of_odFind hfd, hrv⟩
        · rw [tripleOf, b3 r hrv]
          rw [vmKey] at hkr
          injection hkr with e1 e2
          rw [e1, e2]


theorem union_insert_helper {α : Type _} [DecidableEq α] (A B : Finset α) (a : α) :
    (A ∪ {a}) ∪ B = A ∪ insert a B := by
  rw [Finset.insert_eq, Finset.union_assoc]

theorem union_insert_absorb {α : Type _} [DecidableEq α] {A : Finset α} {a : α} (h : a ∈ A)
    (B : Finset α) : A ∪ insert a B = A ∪ B := by
  rw [Finset.union_insert, Finset.insert_eq_self.mpr (Finset.mem_union_left _ h)]

/-! ### Properties of the reconciliation report -/

/-- The truthy review ids occurring in a dataset, in occurrence order. -/
def truthyIds (data : List Submission) : List String :=
  (data.flatMap (fun s => s.directReplies)).filterMap
    (fun r => if r.id = "" then none else some r.id)

/-- The grouping fold of one `analyze_data` iteration, groups component. -/
def analyzeGroups (rs : List Review) : List (String × List Review) :=
  rs.foldl (fun g r => if r.id = "" then g else odUpdate g r.id (fun o => o.getD [] ++ [r])) []

/-- The per-id set-insertion fold of `all_review_ids`. -/
def idsFold (rs : List Review) (acc : List String) : List String :=
  rs.foldl (fun ids r => if r.id = "" then ids
    else if r.id ∈ ids then ids else ids ++ [r.id]) acc

theorem giFold_eta (rs : List Review) :
    ∀ (g : List (String × List Review)) (ids : List String),
      rs.foldl
        (fun (p : List (String × List Review) × List String) r =>
          if r.id = "" then p
          else
            (odUpdate p.1 r.id (fun o => o.getD [] ++ [r]),
             if r.id ∈ p.2 then p.2 else p.2 ++ [r.id])) (g, ids) =
      (rs.foldl (fun g r => if r.id = "" then g
          else odUpdate g r.id (fun o => o.getD [] ++ [r])) g,
       idsFold rs ids) := by
  induction rs with
  | nil => intro g ids; rfl
  | cons r rest ih =>
    intro g ids
    simp only [List.foldl_cons, idsFold]
    by_cases hid : r.id = ""
    · rw [if_pos hid, if_pos hid, if_pos hid]
      exact ih g ids
    · rw [if_neg hid, if_neg hid, if_neg hid]
      exact ih _ _

theorem filterIds_cons_truthy {r : Review} (rest : List Review) (hid : ¬ r.id = "") :
    (List.filterMap (fun r => if r.id = "" then none else some r.id) (r :: rest)) =
      r.id :: List.filterMap (fun r => if r.id = "" then none else some r.id) rest := by
  rw [List.filterMap_cons, if_neg hid]

theorem filterIds_cons_falsy {r : Review} (rest : List Review) (hid : r.id = "") :
    (List.filterMap (fun r => if r.id = "" then none else some r.id) (r :: rest)) =
      List.filterMap (fun r => if r.id = "" then none else some r.id) rest := by
  rw [List.filterMap_cons, if_pos hid]

theorem idsFold_spec (rs : List Review) :
    ∀ (acc : List String), acc.Nodup →
      (idsFold rs acc).Nodup ∧
      (idsFold rs acc).toFinset =
        acc.toFinset ∪
          (rs.filterMap (fun r => if r.id = "" then none else some r.id)).toFinset := by
  induction rs with
  | nil =>
    intro acc h
    refine ⟨h, ?_⟩
    simp [idsFold]
  | cons r rest ih =>
    intro acc h
    by_cases hid : r.id = ""
    · have hstep : idsFold (r :: rest) acc = idsFold rest acc := by
        simp only [idsFold, List.foldl_cons, if_pos hid]
      rw [hstep, filterIds_cons_falsy rest hid]
      exact ih acc h
    · rw [filterIds_cons_truthy rest hid, List.toFinset_cons]
      by_cases hmem : r.id ∈ acc
      · have hstep : idsFold (r :: rest) acc = idsFold rest acc := by
          simp only [idsFold, List.foldl_cons, if_neg hid, if_pos hmem]
        rw [hstep]
        obtain ⟨h1, h2⟩ := ih acc h
        refine ⟨h1, ?_⟩
        rw [h2]
        exact (union_insert_absorb (List.mem_toFinset.mpr hmem) _).symm
      · have hstep : idsFold (r :: rest) acc = idsFold rest (acc ++ [r.id]) := by
          simp only [idsFold, List.foldl_cons, if_neg hid, if_neg hmem]
        rw [hstep]
        have hnd : (acc ++ [r.id]).Nodup := by
          refine List.nodup_append.mpr ⟨h, by simp, ?_⟩
          intro a ha hb
          simp at hb
          rw [hb] at ha
          exact hmem ha
        obtain ⟨h1, h2⟩ := ih (acc ++ [r.id]) hnd
        refine ⟨h1, ?_⟩
        rw [h2, List.toFinset_append]
        have haux : ([r.id] : List String).toFinset = {r.id} := by simp
        rw [haux]
        exact union_insert_helper _ _ _

theorem analyzeGroups_keys (rs : List Review) :
    ((analyzeGroups rs).map Prod.fst).Nodup ∧
    ((analyzeGroups rs).map Prod.fst).toFinset =
      (rs.filterMap (fun r => if r.id = "" then none else some r.id)).toFinset := by
  have key : ∀ (l : List Review) (g : List (String × List Review)), (g.map Prod.fst).Nodup →
      ((l.foldl (fun g r => if r.id = "" then g
          else odUpdate g r.id (fun o => o.getD [] ++ [r])) g).map Prod.fst).Nodup ∧
      ((l.foldl (fun g r => if r.id = "" then g
          else odUpdate g r.id (fun o => o.getD [] ++ [r])) g).map Prod.fst).toFinset =
        (g.map Prod.fst).toFinset ∪
          (l.filterMap (fun r => if r.id = "" then none else some r.id)).toFinset := by
    intro l
    induction l with
    | nil =>
      intro g h
      refine ⟨h, by simp⟩
    | cons r rest ih =>
      intro g h
      simp only [List.foldl_cons]
      by_cases hid : r.id = ""
      · rw [if_pos hid, filterIds_cons_falsy rest hid]
        exact ih g h
      · rw [if_neg hid, filterIds_cons_truthy rest hid, List.toFinset_cons]
        obtain ⟨h1, h2⟩ := ih (odUpdate g r.id (fun o => o.getD [] ++ [r]))
          (odUpdate_keys_nodup h _ _)
        refine ⟨h1, ?_⟩
        rw [h2, odUpdate_keys]
        by_cases hmem : r.id ∈ g.map Prod.fst
        · rw [if_pos hmem]
          exact (union_insert_absorb (List.mem_toFinset.mpr hmem) _).symm
        · rw [if_neg hmem, List.toFinset_append]
          have haux : ([r.id] : List String).toFinset = {r.id} := by simp
          rw [haux]
          exact union_insert_helper _ _ _
  have h := key rs [] (by simp)
  constructor
  · exact h.1
  · rw [analyzeGroups, h.2]
    simp

theorem analyzeStep_eq (acc : AnalyzeAcc) (s : Submission) :
    analyzeStep acc s =
      if s.directReplies.isEmpty then acc
      else
        { withReviews := acc.withReviews + 1
          totalEntries := acc.totalEntries + s.directReplies.length
          allIds := idsFold s.directReplies acc.allIds
          multi := if (analyzeGroups s.directReplies).length < s.directReplies.length
                   then acc.multi + 1 else acc.multi
          dist := if (analyzeGroups s.directReplies).length < s.directReplies.length
                  then odUpdate acc.dist
                    (s.directReplies.length - (analyzeGroups s.directReplies).length)
                    (fun o => o.getD 0 + 1)
                  else acc.dist } := by
  rw [analyzeStep]
  by_cases he : s.directReplies.isEmpty
  · rw [if_pos he, if_pos he]
  · rw [if_neg he, if_neg he]
    rw [giFold_eta]
    rfl

theorem analyze_totalEntries (data : List Submission) :
    (analyze_data data).total_review_entries
      = (data.map (fun s => s.directReplies.length)).sum := by
  have key : ∀ (l : List Submission) (acc : AnalyzeAcc),
      (l.foldl analyzeStep acc).totalEntries
        = acc.totalEntries + (l.map (fun s => s.directReplies.length)).sum := by
    intro l
    induction l with
    | nil => intro acc; simp
    | cons s rest ih =>
      intro acc
      rw [List.foldl_cons, ih, List.map_cons, List.sum_cons]
      by_cases he : s.directReplies.isEmpty
      · have hstep : analyzeStep acc s = acc := by rw [analyzeStep_eq, if_pos he]
        have hlen : s.directReplies.length = 0 := by
          rw [List.isEmpty_iff.mp he]
          rfl
        rw [hstep, hlen]
        omega
      · have hstep : (analyzeStep acc s).totalEntries
            = acc.totalEntries + s.directReplies.length := by
          rw [analyzeStep_eq, if_neg he]
        rw [hstep]
        omega
  show (data.foldl analyzeStep ⟨0, 0, [], 0, []⟩).totalEntries = _
  rw [key data ⟨0, 0, [], 0, []⟩]
  simp

theorem analyze_unique (data : List Submission) :
    (analyze_data data).unique_reviews = (truthyIds data).toFinset.card := by
  have key : ∀ (l : List Submission) (acc : AnalyzeAcc), acc.allIds.Nodup →
      (l.foldl analyzeStep acc).allIds.Nodup ∧
      (l.foldl analyzeStep acc).allIds.toFinset
        = acc.allIds.toFinset ∪ (truthyIds l).toFinset := by
    intro l
    induction l with
    | nil =>
      intro acc h
      refine ⟨h, ?_⟩
      simp [truthyIds]
    | cons s rest ih =>
      intro acc h
      rw [List.foldl_cons]
      by_cases he : s.directReplies.isEmpty
      · have hstep : analyzeStep acc s = acc := by rw [analyzeStep_eq, if_pos he]
        rw [hstep]
        obtain ⟨h1, h2⟩ := ih acc h
        refine ⟨h1, ?_⟩
        rw [h2]
        have htr : truthyIds (s :: rest) = truthyIds rest := by
          rw [truthyIds, truthyIds, List.flatMap_cons, List.isEmpty_iff.mp he]
          rfl
        rw [htr]
      · have hallIds : (analyzeStep acc s).allIds = idsFold s.directReplies acc.allIds := by
          rw [analyzeStep_eq, if_neg he]
        obtain ⟨hn, hset⟩ := idsFold_spec s.directReplies acc.allIds h
        obtain ⟨h1, h2⟩ := ih (analyzeStep acc s) (by rw [hallIds]; exact hn)
        refine ⟨h1, ?_⟩
        rw [h2, hallIds, hset]
        have htr : truthyIds (s :: rest) =
            (s.directReplies.filterMap (fun r => if r.id = "" then none else some r.id))
              ++ truthyIds rest := by
          rw [truthyIds, truthyIds, List.flatMap_cons, List.filterMap_append]
        rw [htr, List.toFinset_append, Finset.union_assoc]
  obtain ⟨h1, h2⟩ := key data ⟨0, 0, [], 0, []⟩ (by simp)
  show (data.foldl analyzeStep ⟨0, 0, [], 0, []⟩).allIds.length = _
  rw [← List.toFinset_card_of_nodup h1, h2]
  simp

theorem analyze_multi (data : List Submission) :
    (analyze_data data).multi_version_count
      = data.countP (fun s => !s.directReplies.isEmpty &&
          decide ((analyzeGroups s.directReplies).length < s.directReplies.length)) := by
  have key : ∀ (l : List Submission) (acc : AnalyzeAcc),
      (l.foldl analyzeStep acc).multi
        = acc.multi + l.countP (fun s => !s.directReplies.isEmpty &&
            decide ((analyzeGroups s.directReplies).length < s.directReplies.length)) := by
    intro l
    induction l with
    | nil => intro acc; simp
    | cons s rest ih =>
      intro acc
      rw [List.foldl_cons, ih, List.countP_cons]
      by_cases he : s.directReplies.isEmpty
      · have hstep : analyzeStep acc s = acc := by rw [analyzeStep_eq, if_pos he]
        rw [hstep, he]
        simp
      · by_cases hlt : (analyzeGroups s.directReplies).length < s.directReplies.length
        · have hstep : (analyzeStep acc s).multi = acc.multi + 1 := by
            rw [analyzeStep_eq, if_neg he]
            show (if (analyzeGroups s.directReplies).length < s.directReplies.length
              then acc.multi + 1 else acc.multi) = acc.multi + 1
            rw [if_pos hlt]
          rw [hstep]
          have hp : (!s.directReplies.isEmpty &&
              decide ((analyzeGroups s.directReplies).length < s.directReplies.length)) = true := by
            rw [Bool.and_eq_true, Bool.not_eq_eq_eq_not]
            exact ⟨by simpa using he, decide_eq_true hlt⟩
          rw [hp, if_pos rfl]
          omega
        · have hstep : (analyzeStep acc s).multi = acc.multi := by
            rw [analyzeStep_eq, if_neg he]
            show (if (analyzeGroups s.directReplies).length < s.directReplies.length
              then acc.multi + 1 else acc.multi) = acc.multi
            rw [if_neg hlt]
          rw [hstep]
          have hp : (!s.directReplies.isEmpty &&
              decide ((analyzeGroups s.directReplies).length < s.directReplies.length)) = false := by
            rw [Bool.and_eq_false_iff]
            right
            exact decide_eq_false hlt
          rw [hp, if_neg (by simp)]
          omega
  show (data.foldl analyzeStep ⟨0, 0, [], 0, []⟩).multi = _
  rw [key data ⟨0, 0, [], 0, []⟩]
  simp

/-! ### Characterizing the merged output -/

theorem trRaw_sorted_toFinset (L : List Snapshot) (sid : String) :
    (trRaw ((sortSnapshots L).flatMap (fun p => p.2)) sid).toFinset = trSet L sid := by
  ext x
  rw [List.mem_toFinset, trSet, List.mem_toFinset, mem_trRaw, mem_trRaw]
  constructor
  · rintro ⟨s, hs, hrest⟩
    rcases List.mem_flatMap.mp hs with ⟨p, hp, hsp⟩
    exact ⟨s, List.mem_flatMap.mpr ⟨p, (sortSnapshots_perm L).mem_iff.mp hp, hsp⟩, hrest⟩
  · rintro ⟨s, hs, hrest⟩
    rcases List.mem_flatMap.mp hs with ⟨p, hp, hsp⟩
    exact ⟨s, List.mem_flatMap.mpr ⟨p, (sortSnapshots_perm L).mem_iff.mpr hp, hsp⟩, hrest⟩

theorem seed_key_some {L : List Snapshot} {b : Snapshot}
    (hb : selectBase (sortSnapshots L) = .ok b) {e : String × Submission}
    (hem : e ∈ seedMerged b.2) :
    ∃ d, odFind (collectAll (sortSnapshots L)) e.1 = some d := by
  obtain ⟨he2, he1, hne⟩ := seedMerged_sound b.2 e hem
  have hbmem : b ∈ sortSnapshots L := selectBase_mem hb
  have hidmem : e.2.id ∈ ((sortSnapshots L).flatMap (fun p => p.2)).map Submission.id :=
    List.mem_map.mpr ⟨e.2, List.mem_flatMap.mpr ⟨b, hbmem, he2⟩, rfl⟩
  have hinv := collInv_collectAll (sortSnapshots L)
  have hsome := (hinv.2.1 e.2.id).mpr ⟨hne, hidmem⟩
  rw [← he1] at hsome
  exact Option.isSome_iff_exists.mp hsome

theorem merge_elem_spec {L : List Snapshot} {res : List Submission} {b : Snapshot}
    (hb : selectBase (sortSnapshots L) = .ok b)
    (hres : res = List.insertionSort subLe
      (attachReviews (collectAll (sortSnapshots L)) (seedMerged b.2))) :
    ∀ s ∈ res, ∃ e ∈ seedMerged b.2, e.2 ∈ b.2 ∧ e.1 = e.2.id ∧ ¬ e.2.id = "" ∧
      s.id = e.2.id ∧ s.number = e.2.number ∧ s.title = e.2.title ∧
      ∃ d, odFind (collectAll (sortSnapshots L)) e.1 = some d ∧
        s.directReplies = List.insertionSort reviewLe (flattenGroups d) := by
  intro s hs
  rw [hres, List.mem_insertionSort] at hs
  obtain ⟨e, hem, h1, h2, h3, hrep⟩ := attachReviews_mem hs
  obtain ⟨he2, he1, hne⟩ := seedMerged_sound b.2 e hem
  rcases hrep with ⟨hnone, -⟩ | ⟨groups, hfind, hseq⟩
  · obtain ⟨d, hd⟩ := seed_key_some hb hem
    rw [hnone] at hd
    exact absurd hd (by simp)
  · refine ⟨e, hem, he2, he1, hne, h1, h2, h3, groups, hfind, ?_⟩
    rw [hseq]

theorem attach_elem_of_seed {L : List Snapshot} {b : Snapshot}
    (hb : selectBase (sortSnapshots L) = .ok b) {e : String × Submission}
    (hem : e ∈ seedMerged b.2) :
    ∃ d, odFind (collectAll (sortSnapshots L)) e.1 = some d ∧
      { e.2 with directReplies := List.insertionSort reviewLe (flattenGroups d) }
        ∈ attachReviews (collectAll (sortSnapshots L)) (seedMerged b.2) := by
  obtain ⟨d, hd⟩ := seed_key_some hb hem
  refine ⟨d, hd, ?_⟩
  unfold attachReviews
  refine List.mem_map.mpr ⟨e, hem, ?_⟩
  rw [hd]

theorem attach_lengths_eq {L : List Snapshot} {b : Snapshot}
    (hb : selectBase (sortSnapshots L) = .ok b) :
    (attachReviews (collectAll (sortSnapshots L)) (seedMerged b.2)).map
        (fun s => s.directReplies.length)
      = (seedMerged b.2).map (fun e => (trSet L e.1).card) := by
  unfold attachReviews
  rw [List.map_map]
  refine List.map_congr_left ?_
  intro e hem
  obtain ⟨d, hd⟩ := seed_key_some hb hem
  obtain ⟨hids, hnd, hset⟩ := flatten_spec (collInv_collectAll (sortSnapshots L)) hd
  show (match odFind (collectAll (sortSnapshots L)) e.1 with
    | some groups =>
        { e.2 with directReplies := List.insertionSort reviewLe (flattenGroups groups) }
    | none => e.2).directReplies.length = (trSet L e.1).card
  rw [hd]
  show (List.insertionSort reviewLe (flattenGroups d)).length = (trSet L e.1).card
  rw [(List.perm_insertionSort reviewLe (flattenGroups d)).length_eq]
  rw [← List.length_map (flattenGroups d) tripleOf]
  rw [← List.toFinset_card_of_nodup hnd, hset, trRaw_sorted_toFinset]

theorem merge_total_eq {L : List Snapshot} {res : List Submission}
    (h : merge_reviews L = .ok res) {b : Snapshot}
    (hb : selectBase (sortSnapshots L) = .ok b) :
    (analyze_data res).total_review_entries
      = ((seedMerged b.2).map (fun e => (trSet L e.1).card)).sum := by
  obtain ⟨b', hb', hres⟩ := merge_reviews_eq_ok.mp h
  rw [hb] at hb'
  injection hb' with hbb
  subst hbb
  rw [analyze_totalEntries, hres]
  rw [((List.perm_insertionSort subLe _).map (fun s => s.directReplies.length)).sum_eq]
  rw [attach_lengths_eq hb]

theorem merge_ids_iff {L : List Snapshot} {res : List Submission}
    (h : merge_reviews L = .ok res) {b : Snapshot}
    (hb : selectBase (sortSnapshots L) = .ok b) (x : String) :
    x ∈ (truthyIds res).toFinset ↔
      ∃ e ∈ seedMerged b.2, ∃ v m : Int, (x, v, m) ∈ trSet L e.1 := by
  obtain ⟨b', hb', hres⟩ := merge_reviews_eq_ok.mp h
  rw [hb] at hb'
  injection hb' with hbb
  subst hbb
  rw [List.mem_toFinset]
  constructor
  · intro hx
    rw [truthyIds, List.mem_filterMap] at hx
    obtain ⟨r, hr, hxr⟩ := hx
    by_cases hrid : r.id = ""
    · rw [if_pos hrid] at hxr
      exact absurd hxr (by simp)
    · rw [if_neg hrid] at hxr
      injection hxr with hxr
      rcases List.mem_flatMap.mp hr with ⟨s, hsres, hrs⟩
      obtain ⟨e, hem, -, -, -, -, -, -, d, hd, hrep⟩ := merge_elem_spec hb hres s hsres
      rw [hrep, List.mem_insertionSort] at hrs
      obtain ⟨-, hnd, hset⟩ := flatten_spec (collInv_collectAll (sortSnapshots L)) hd
      have htr : tripleOf r ∈ ((flattenGroups d).map tripleOf).toFinset :=
        List.mem_toFinset.mpr (List.mem_map.mpr ⟨r, hrs, rfl⟩)
      rw [hset, trRaw_sorted_toFinset] at htr
      refine ⟨e, hem, r.version, r.mdate, ?_⟩
      rw [← hxr]
      exact htr
  · rintro ⟨e, hem, v, m, hx⟩
    obtain ⟨d, hd, hmem⟩ := attach_elem_of_seed hb hem
    obtain ⟨hids, hnd, hset⟩ := flatten_spec (collInv_collectAll (sortSnapshots L)) hd
    have hx2 : (x, v, m) ∈ ((flattenGroups d).map tripleOf).toFinset := by
      rw [hset, trRaw_sorted_toFinset]
      exact hx
    rcases List.mem_map.mp (List.mem_toFinset.mp hx2) with ⟨r, hrf, hxr⟩
    have hxid : x = r.id := (congrArg Prod.fst hxr).symm
    rw [truthyIds, List.mem_filterMap]
    refine ⟨r, ?_, ?_⟩
    · refine List.mem_flatMap.mpr
        ⟨{ e.2 with directReplies := List.insertionSort reviewLe (flattenGroups d) }, ?_, ?_⟩
      · rw [hres, List.mem_insertionSort]
        exact hmem
      · show r ∈ List.insertionSort reviewLe (flattenGroups d)
        rw [List.mem_insertionSort]
        exact hrf
    · rw [if_neg (hids r hrf), hxid]

theorem trSet_append_subset (L : List Snapshot) (p : Snapshot) (sid : String) :
    trSet L sid ⊆ trSet (L ++ [p]) sid := by
  intro x hx
  rw [trSet, List.mem_toFinset, mem_trRaw] at hx ⊢
  obtain ⟨s, hs, hrest⟩ := hx
  rcases List.mem_flatMap.mp hs with ⟨q, hq, hsq⟩
  exact ⟨s, List.mem_flatMap.mpr ⟨q, List.mem_append.mpr (Or.inl hq), hsq⟩, hrest⟩

theorem trSet_append_self {L : List Snapshot} {p : Snapshot} (hp : p ∈ L) (sid : String) :
    trSet (L ++ [p]) sid = trSet L sid := by
  refine Finset.Subset.antisymm ?_ (trSet_append_subset L p sid)
  intro x hx
  rw [trSet, List.mem_toFinset, mem_trRaw] at hx ⊢
  obtain ⟨s, hs, hrest⟩ := hx
  rcases List.mem_flatMap.mp hs with ⟨q, hq, hsq⟩
  rcases List.mem_append.mp hq with hq | hq
  · exact ⟨s, List.mem_flatMap.mpr ⟨q, hq, hsq⟩, hrest⟩
  · simp only [List.mem_singleton] at hq
    exact ⟨s, List.mem_flatMap.mpr ⟨q, hq ▸ hp, hsq⟩, hrest⟩

theorem base_eq_of_append {L : List Snapshot} {p : Snapshot} (hp : p ∈ L)
    (H : ∀ a ∈ L, ∀ b ∈ L, a.1 = b.1 → a.2 = b.2)
    {bA bB : Snapshot} (hA : selectBase (sortSnapshots L) = .ok bA)
    (hB : selectBase (sortSnapshots (L ++ [p])) = .ok bB) : bA = bB := by
  have hAmem : bA ∈ L := (sortSnapshots_perm L).subset (selectBase_mem hA)
  have hBmem2 : bB ∈ L ++ [p] := (sortSnapshots_perm _).subset (selectBase_mem hB)
  have hBmem : bB ∈ L := by
    rcases List.mem_append.mp hBmem2 with hq | hq
    · exact hq
    · simp only [List.mem_singleton] at hq
      rw [hq]
      exact hp
  have h1 : snapLe bA bB := by
    apply base_is_max (sortSnapshots_pairwise _) hB
    exact (sortSnapshots_perm _).mem_iff.mpr (List.mem_append.mpr (Or.inl hAmem))
  have h2 : snapLe bB bA := by
    apply base_is_max (sortSnapshots_pairwise _) hA
    exact (sortSnapshots_perm _).mem_iff.mpr hBmem
  have hfst : bA.1 = bB.1 := snapLe_antisymm_fst h1 h2
  have hsnd : bA.2 = bB.2 := H bA hAmem bB hBmem hfst
  exact Prod.ext_iff.mpr ⟨hfst, hsnd⟩

theorem merge_no_dup_versions {L : List Snapshot} {res : List Submission}
    (h : merge_reviews L = .ok res) :
    ∀ s ∈ res, ∀ rid : String,
      (s.directReplies.filter (fun r => decide (r.id = rid))).Pairwise
        (fun a b => ¬ (a.version = b.version ∧ a.mdate = b.mdate)) := by
  obtain ⟨b, hb, hres⟩ := merge_reviews_eq_ok.mp h
  intro s hs rid
  obtain ⟨e, hem, -, -, -, -, -, -, d, hd, hrep⟩ := merge_elem_spec hb hres s hs
  obtain ⟨hids, hnd, -⟩ := flatten_spec (collInv_collectAll (sortSnapshots L)) hd
  have hpw : (flattenGroups d).Pairwise (fun a b => tripleOf a ≠ tripleOf b) :=
    List.pairwise_map.mp hnd
  have hsymm : Symmetric (fun a b : Review => tripleOf a ≠ tripleOf b) := by
    intro a b hab
    exact fun hh => hab hh.symm
  have hpw2 : s.directReplies.Pairwise (fun a b => tripleOf a ≠ tripleOf b) := by
    rw [hrep]
    exact ((List.perm_insertionSort reviewLe (flattenGroups d)).pairwise_iff
      (fun h => hsymm h)).mpr hpw
  have hpw3 := hpw2.filter (fun r => decide (r.id = rid))
  refine hpw3.imp_of_mem ?_
  intro a c ha hc hne
  rintro ⟨hv, hm⟩
  have ha2 := List.mem_filter.mp ha
  have hc2 := List.mem_filter.mp hc
  have haid : a.id = rid := of_decide_eq_true ha2.2
  have hcid : c.id = rid := of_decide_eq_true hc2.2
  refine hne ?_
  rw [tripleOf, tripleOf, haid, hcid, hv, hm]

/-! ### Concrete instances -/

deriving instance DecidableEq for Except

/-- Review version 1 of review `R1` (rating 6, mdate 100). -/
def r1ex : Review := ⟨"R1", 1, 1, 100, some 6, ["Official_Review"]⟩

/-- Review version 2 of review `R1` (rating 8, mdate 200). -/
def r2ex : Review := ⟨"R1", 1, 2, 200, some 8, ["Official_Review"]⟩

/-- Snapshot `S1`, dated `"20250101"`, holding submission `X` titled `"Draft"`. -/
def S1ex : Snapshot := ("20250101", [⟨"X", 1, "Draft", [r1ex]⟩])

/-- Snapshot `S2`, dated `"20250201"`, holding submission `X` titled `"Final"`. -/
def S2ex : Snapshot := ("20250201", [⟨"X", 1, "Final", [r2ex]⟩])

/-- The merged submission `X`: metadata of `S2`, both review versions. -/
def Xmerged : Submission := ⟨"X", 1, "Final", [r1ex, r2ex]⟩

/-- Total review entries of the merged output, when the merge succeeds. -/
def mergedTotalEntries (l : List Snapshot) : Option Nat :=
  match merge_reviews l with
  | .ok r => some ((analyze_data r).total_review_entries)
  | .error _ => none

/-- Unique reviews of the merged output, when the merge succeeds. -/
def mergedUniqueReviews (l : List Snapshot) : Option Nat :=
  match merge_reviews l with
  | .ok r => some ((analyze_data r).unique_reviews)
  | .error _ => none

/-! ### The claims -/

/-- C1: for every input list with at least one dated snapshot, each merged
submission's metadata comes from exactly one snapshot — a dated snapshot whose
chronokey dominates every dated chronokey in the input, never the sentinel —
and concretely `reconcile([S1, S2])` yields `X` titled `"Final"` with the
review lists of both snapshots merged. -/
theorem claim_C1_metadata_precedence :
    (∀ (L : List Snapshot) (res : List Submission), merge_reviews L = .ok res →
      (∃ p ∈ L, ¬ p.1 = "merged") →
      ∀ s ∈ res, ∃ p ∈ L, ¬ p.1 = "merged" ∧
        (∀ q ∈ L, ¬ q.1 = "merged" → strLe q.1 p.1) ∧
        ∃ s0 ∈ p.2, s.id = s0.id ∧ s.number = s0.number ∧ s.title = s0.title)
    ∧ merge_reviews [S1ex, S2ex] = .ok [Xmerged] := by
  constructor
  · intro L res h hdated s hs
    obtain ⟨b, hb, hres⟩ := merge_reviews_eq_ok.mp h
    obtain ⟨p0, hp0, hp0m⟩ := hdated
    have hbmem : b ∈ L := (sortSnapshots_perm L).subset (selectBase_mem hb)
    have hbm : ¬ b.1 = "merged" :=
      base_not_merged (sortSnapshots_pairwise _) hb
        ((sortSnapshots_perm L).mem_iff.mpr hp0) hp0m
    refine ⟨b, hbmem, hbm, ?_, ?_⟩
    · intro q hq hqm
      rcases base_is_max (sortSnapshots_pairwise _) hb q
          ((sortSnapshots_perm L).mem_iff.mpr hq) with ⟨hqmm, -⟩ | ⟨-, hle⟩
      · exact absurd hqmm hqm
      · exact hle
    · obtain ⟨e, hem, he2, -, -, h1, h2, h3, -⟩ := merge_elem_spec hb hres s hs
      exact ⟨e.2, he2, h1, h2, h3⟩
  · decide

/-- Witness for C1 at the concrete `S1`, `S2` instance. -/
theorem claim_C1_witness :
    ∃ p ∈ [S1ex, S2ex], ¬ p.1 = "merged" ∧
      (∀ q ∈ [S1ex, S2ex], ¬ q.1 = "merged" → strLe q.1 p.1) ∧
      ∃ s0 ∈ p.2, Xmerged.id = s0.id ∧ Xmerged.number = s0.number ∧
        Xmerged.title = s0.title :=
  claim_C1_metadata_precedence.1 [S1ex, S2ex] [Xmerged]
    (by decide) (by decide) Xmerged (by decide)

/-- C3: the merged submission list is sorted by submission number ascending,
and each submission's review list is the flattening of its review version
sets, sorted ascending by `(number, version, mdate)`. -/
theorem claim_C3_ordering :
    ∀ (L : List Snapshot) (res : List Submission), merge_reviews L = .ok res →
      res.Pairwise subLe ∧
      ∀ s ∈ res, s.directReplies.Pairwise reviewLe ∧
        ∃ groups, odFind (collectAll (sortSnapshots L)) s.id = some groups ∧
          s.directReplies = List.insertionSort reviewLe (flattenGroups groups) := by
  intro L res h
  obtain ⟨b, hb, hres⟩ := merge_reviews_eq_ok.mp h
  constructor
  · rw [hres]
    exact List.sorted_insertionSort subLe _
  · intro s hs
    obtain ⟨e, hem, -, he1, -, hsid, -, -, d, hd, hrep⟩ := merge_elem_spec hb hres s hs
    constructor
    · rw [hrep]
      exact List.sorted_insertionSort reviewLe _
    · refine ⟨d, ?_, hrep⟩
      rw [hsid, ← he1]
      exact hd

/-- Witness for C3 at the concrete `S1`, `S2` instance. -/
theorem claim_C3_witness :
    [Xmerged].Pairwise subLe ∧
    ∀ s ∈ [Xmerged], s.directReplies.Pairwise reviewLe ∧
      ∃ groups, odFind (collectAll (sortSnapshots [S1ex, S2ex])) s.id = some groups ∧
        s.directReplies = List.insertionSort reviewLe (flattenGroups groups) :=
  claim_C3_ordering [S1ex, S2ex] [Xmerged] (by decide)

/-- Submission used in the sentinel-only examples. -/
def XsubT : Submission := ⟨"X", 1, "t", []⟩

/-- Counterexample to C4 as stated: on an input whose only snapshot carries
the sentinel chronokey, `merge_reviews` does not fail with
`NoMetadataSourceError`; it succeeds, using that sentinel snapshot as the
metadata source. -/
theorem claim_C4_counterexample :
    merge_reviews [("merged", [XsubT])] = .ok [XsubT] ∧
    ¬ merge_reviews [("merged", [XsubT])] = .error .NoMetadataSourceError := by
  decide

/-- C4 (amended): when every snapshot is the sentinel, `merge_reviews` does
not fail: it falls back to the last snapshot in sort order as metadata
source and returns a merged output whose metadata comes from the input. -/
theorem claim_C4_sentinel_fallback :
    ∀ L : List Snapshot, ¬ L = [] → (∀ p ∈ L, p.1 = "merged") →
      ∃ res, merge_reviews L = .ok res ∧
        ∀ s ∈ res, ∃ p ∈ L, ∃ s0 ∈ p.2,
          s.id = s0.id ∧ s.number = s0.number ∧ s.title = s0.title := by
  intro L hne hall
  have hsne : ¬ sortSnapshots L = [] := by
    intro hnil
    have hlen := (sortSnapshots_perm L).length_eq
    rw [hnil] at hlen
    exact hne (List.length_eq_zero.mp hlen.symm)
  obtain ⟨b, hb⟩ := selectBase_ok_of_ne_nil hsne
  refine ⟨_, merge_reviews_eq_ok.mpr ⟨b, hb, rfl⟩, ?_⟩
  intro s hs
  obtain ⟨e, hem, he2, -, -, h1, h2, h3, -⟩ := merge_elem_spec hb rfl s hs
  exact ⟨b, (sortSnapshots_perm L).subset (selectBase_mem hb), e.2, he2, h1, h2, h3⟩

/-- Witness for C4 (amended) at a concrete sentinel-only input. -/
theorem claim_C4_witness :
    ∃ res, merge_reviews [("merged", [XsubT])] = .ok res ∧
      ∀ s ∈ res, ∃ p ∈ [(("merged", [XsubT]) : Snapshot)], ∃ s0 ∈ p.2,
        s.id = s0.id ∧ s.number = s0.number ∧ s.title = s0.title :=
  claim_C4_sentinel_fallback [("merged", [XsubT])] (by decide) (by decide)

/-- Replace the first element satisfying `P` — the object a linear scan
stops at — by its image under `f`; every other element is untouched. -/
def replaceFirst {α : Type _} (P : α → Bool) (f : α → α) : List α → List α
  | [] => []
  | x :: xs => if P x then f x :: xs else x :: replaceFirst P f xs

/-- Lines 183–200 for one base submission: line 126's `submission.copy()` is
shallow, so the copy's `details` entry is the same dict object as the
original's, and line 200's `submission['details']['directReplies'] =
all_review_versions` rewrites the original's review list whenever its id has
a version-store entry (the guard of line 183). -/
def mutateSub (colls : List (String × List (String × List Review)))
    (s : Submission) : Submission :=
  match odFind colls s.id with
  | some groups =>
      { s with directReplies := List.insertionSort reviewLe (flattenGroups groups) }
  | none => s

/-- Lines 122–126 and 182–200 on the base snapshot's submission list:
`merged_submissions[sub_id] = submission.copy()` keeps only the copy of the
last submission with each truthy id (a later assignment to the same key
overwrites the earlier copy), so exactly those originals are rewritten
through the shared `details` dict; a falsy-id submission, or an earlier
duplicate whose copy was overwritten, keeps its review list. -/
def mutateSubs (colls : List (String × List (String × List Review))) :
    List Submission → List Submission
  | [] => []
  | s :: rest =>
      (if ¬ s.id = "" ∧ rest.all (fun t => !decide (t.id = s.id))
       then mutateSub colls s else s) :: mutateSubs colls rest

/-- The mutation seen on one snapshot of the caller's list: its chronokey is
untouched, its submissions are rewritten by `mutateSubs`. -/
def mutateSnap (colls : List (String × List (String × List Review)))
    (p : Snapshot) : Snapshot :=
  (p.1, mutateSubs colls p.2)

/-- State of the caller's `all_files_data` list after `merge_reviews`
returns: line 104 sorts it in place, and the snapshot whose submissions list
`latest_submissions` was bound to — the object the reversed scan of lines
109–113 stopped at, or `all_files_data[-1]` when no dated snapshot exists or
the found one has an empty submission list — has its submissions' review
lists rewritten through the shallow-copy aliasing of lines 126 and 200. -/
def merge_reviews_inputAfter (l : List Snapshot) : List Snapshot :=
  let sorted := sortSnapshots l
  let colls := collectAll sorted
  match findLatestDated sorted with
  | some p =>
      if p.2.isEmpty then
        (replaceFirst (fun _ => true) (mutateSnap colls) sorted.reverse).reverse
      else
        (replaceFirst (fun q => decide (¬ q.1 = "merged")) (mutateSnap colls)
          sorted.reverse).reverse
  | none =>
      (replaceFirst (fun _ => true) (mutateSnap colls) sorted.reverse).reverse

theorem replaceFirst_of_find? {α : Type _} (P : α → Bool) (f : α → α) :
    ∀ {xs : List α} {x : α}, xs.find? P = some x →
      ∃ pre post, xs = pre ++ x :: post ∧
        replaceFirst P f xs = pre ++ f x :: post := by
  intro xs
  induction xs with
  | nil => intro x h; simp [List.find?] at h
  | cons a as ih =>
      intro x h
      by_cases hp : P a = true
      · rw [List.find?_cons_of_pos _ hp] at h
        injection h with h
        subst h
        exact ⟨[], as, rfl, by simp [replaceFirst, hp]⟩
      · rw [List.find?_cons_of_neg _ (by simpa using hp)] at h
        obtain ⟨pre, post, he, hrf⟩ := ih h
        refine ⟨a :: pre, post, by rw [List.cons_append, ← he], ?_⟩
        simp [replaceFirst, hp, hrf]

theorem reverse_middle {α : Type _} (pre : List α) (x : α) (post : List α) :
    (pre ++ x :: post).reverse = post.reverse ++ x :: pre.reverse := by
  simp

/-- Counterexample to C5 as stated: `merge_reviews` both reorders the
caller's list in place and rewrites the metadata-source snapshot's review
lists through the shallow-copy aliasing, so the post-call list is not even a
permutation of the input — snapshot `S2`'s submission now carries both
review versions. -/
theorem claim_C5_counterexample :
    ¬ merge_reviews_inputAfter [S2ex, S1ex] = [S2ex, S1ex] ∧
    ¬ (merge_reviews_inputAfter [S2ex, S1ex]).Perm [S2ex, S1ex] ∧
    merge_reviews_inputAfter [S2ex, S1ex]
      = [S1ex, ("20250201", [⟨"X", 1, "Final", [r1ex, r2ex]⟩])] := by
  decide

/-- C5 (amended): `merge_reviews` is not pure — it sorts the caller's list
in place, and through the shallow copy of line 126 the assignment of line
200 rewrites the review lists of the metadata-source snapshot inside the
caller's list. That is the whole effect: the post-call list is the input
sorted by chronokey with exactly the selected base snapshot rewritten — its
chronokey kept, its submissions mutated by `mutateSubs` — and every other
snapshot is unchanged; an empty input is returned unchanged. -/
theorem claim_C5_mutation_scope :
    merge_reviews_inputAfter [] = [] ∧
    ∀ (l : List Snapshot) (b : Snapshot), selectBase (sortSnapshots l) = .ok b →
      ∃ pre post, sortSnapshots l = pre ++ b :: post ∧
        merge_reviews_inputAfter l
          = pre ++ (b.1, mutateSubs (collectAll (sortSnapshots l)) b.2) :: post := by
  constructor
  · rfl
  · intro l b hb
    cases hf : findLatestDated (sortSnapshots l) with
    | some p =>
        by_cases hemp : p.2.isEmpty
        · cases hlast : (sortSnapshots l).getLast? with
          | none => simp [selectBase, hf, hemp, hlast] at hb
          | some q =>
              simp only [selectBase, hf, if_pos hemp, hlast, Except.ok.injEq] at hb
              subst hb
              have hh : (sortSnapshots l).reverse.head? = some q := by
                rw [List.head?_reverse]; exact hlast
              cases hrv : (sortSnapshots l).reverse with
              | nil => rw [hrv] at hh; cases hh
              | cons c rest =>
                  rw [hrv] at hh
                  injection hh with hh
                  subst hh
                  refine ⟨rest.reverse, [], ?_, ?_⟩
                  · rw [← List.reverse_reverse (sortSnapshots l), hrv,
                      List.reverse_cons]
                  · simp only [merge_reviews_inputAfter, hf, if_pos hemp, hrv]
                    simp [replaceFirst, mutateSnap]
        · simp only [selectBase, hf, if_neg hemp, Except.ok.injEq] at hb
          subst hb
          have hfind : (sortSnapshots l).reverse.find?
              (fun q => decide (¬ q.1 = "merged")) = some p := hf
          obtain ⟨pre, post, hrev, hrf⟩ :=
            replaceFirst_of_find? (fun q => decide (¬ q.1 = "merged"))
              (mutateSnap (collectAll (sortSnapshots l))) hfind
          refine ⟨post.reverse, pre.reverse, ?_, ?_⟩
          · rw [← List.reverse_reverse (sortSnapshots l), hrev, reverse_middle]
          · simp only [merge_reviews_inputAfter, hf, if_neg hemp]
            rw [hrf, reverse_middle]
            rfl
    | none =>
        cases hlast : (sortSnapshots l).getLast? with
        | none => simp [selectBase, hf, hlast] at hb
        | some q =>
            simp only [selectBase, hf, hlast, Except.ok.injEq] at hb
            subst hb
            have hh : (sortSnapshots l).reverse.head? = some q := by
              rw [List.head?_reverse]; exact hlast
            cases hrv : (sortSnapshots l).reverse with
            | nil => rw [hrv] at hh; cases hh
            | cons c rest =>
                rw [hrv] at hh
                injection hh with hh
                subst hh
                refine ⟨rest.reverse, [], ?_, ?_⟩
                · rw [← List.reverse_reverse (sortSnapshots l), hrv,
                    List.reverse_cons]
                · simp only [merge_reviews_inputAfter, hf, hrv]
                  simp [replaceFirst, mutateSnap]

/-- Witness for C5 (amended) at the concrete `S1`, `S2` instance: the base
snapshot `S2` is the rewritten element. -/
theorem claim_C5_witness :
    ∃ pre post, sortSnapshots [S2ex, S1ex] = pre ++ (S2ex : Snapshot) :: post ∧
      merge_reviews_inputAfter [S2ex, S1ex]
        = pre ++ ((S2ex.1,
            mutateSubs (collectAll (sortSnapshots [S2ex, S1ex])) S2ex.2) : Snapshot) :: post :=
  claim_C5_mutation_scope.2 [S2ex, S1ex] S2ex (by decide)

/-- C6: called on an empty snapshot list, `merge_reviews` fails with
`EmptyInputError` (in the source, the uncaught `IndexError` of
`all_files_data[-1]`), producing no output. -/
theorem claim_C6_empty_input : merge_reviews [] = .error .EmptyInputError := rfl

/-- Review entries for the counterexample snapshots. -/
def rxa : Review := ⟨"x", 1, 1, 10, none, []⟩

/-- Second review entry, id `"y"`. -/
def rya : Review := ⟨"y", 2, 1, 10, none, []⟩

/-- Third review entry, id `"z"`. -/
def rza : Review := ⟨"z", 1, 1, 10, none, []⟩

/-- A snapshot with chronokey `"d"` holding submission `A` with two reviews. -/
def snapA : Snapshot := ("d", [⟨"A", 1, "a", [rxa, rya]⟩])

/-- A distinct snapshot with the same chronokey `"d"`, holding submission
`B` with one review. -/
def snapB : Snapshot := ("d", [⟨"B", 2, "b", [rza]⟩])

/-- Counterexample to the second half of C2 as stated: when two distinct
snapshots share a chronokey, appending a second copy of one of them flips
the metadata source (the tie is broken by position) and changes
`total_review_entries` of the merged output from 1 to 2. -/
theorem claim_C2_counterexample :
    snapA ∈ [snapA, snapB] ∧
    mergedTotalEntries [snapA, snapB] = some 1 ∧
    mergedTotalEntries ([snapA, snapB] ++ [snapA]) = some 2 := by
  decide

/-- C2 (amended): (a) in the merged output no submission's review list has
two entries with the same review id and equal `(version, mdate)`; (b)
appending a second copy of a snapshot already present leaves
`total_review_entries` unchanged, provided any two input snapshots with
equal chronokeys carry equal submission lists. -/
theorem claim_C2_dedup :
    (∀ (L : List Snapshot) (res : List Submission), merge_reviews L = .ok res →
      ∀ s ∈ res, ∀ rid : String,
        (s.directReplies.filter (fun r => decide (r.id = rid))).Pairwise
          (fun a b => ¬ (a.version = b.version ∧ a.mdate = b.mdate)))
    ∧ (∀ (L : List Snapshot) (p : Snapshot) (resA resB : List Submission),
        p ∈ L →
        (∀ a ∈ L, ∀ b ∈ L, a.1 = b.1 → a.2 = b.2) →
        merge_reviews L = .ok resA → merge_reviews (L ++ [p]) = .ok resB →
        (analyze_data resB).total_review_entries
          = (analyze_data resA).total_review_entries) := by
  constructor
  · exact fun L res h => merge_no_dup_versions h
  · intro L p resA resB hp H hA hB
    obtain ⟨bA, hbA, -⟩ := merge_reviews_eq_ok.mp hA
    obtain ⟨bB, hbB, -⟩ := merge_reviews_eq_ok.mp hB
    have hbase := base_eq_of_append hp H hbA hbB
    rw [merge_total_eq hA hbA, merge_total_eq hB hbB, ← hbase]
    refine congrArg List.sum ?_
    refine List.map_congr_left ?_
    intro e hem
    rw [trSet_append_self hp]

/-- Witness for C2 at the concrete `S1`, `S2` instance (appending a copy of
`S1` leaves the total unchanged). -/
theorem claim_C2_witness :
    ((Xmerged.directReplies.filter (fun r => decide (r.id = "R1"))).Pairwise
      (fun a b => ¬ (a.version = b.version ∧ a.mdate = b.mdate)))
    ∧ (analyze_data [Xmerged]).total_review_entries
        = (analyze_data [Xmerged]).total_review_entries :=
  ⟨claim_C2_dedup.1 [S1ex, S2ex] [Xmerged] (by decide) Xmerged (by decide) "R1",
   claim_C2_dedup.2 [S1ex, S2ex] S1ex [Xmerged] [Xmerged] (by decide) (by decide)
     (by decide) (by decide)⟩

/-- Input list for the C7 counterexample: one dated snapshot with one
reviewed submission. -/
def C7A : List Snapshot := [("20250101", [⟨"X", 1, "x", [rxa]⟩])]

/-- The later snapshot added in the C7 counterexample: its submission set no
longer contains `X`. -/
def C7p : Snapshot := ("20250201", [⟨"Y", 2, "y", []⟩])

/-- Counterexample to C7 as stated: adding one later snapshot that no longer
lists submission `X` makes the merged output drop `X` and its review
history, so `unique_reviews` and `total_review_entries` both decrease
(1 to 0). -/
theorem claim_C7_counterexample :
    mergedTotalEntries C7A = some 1 ∧
    mergedTotalEntries (C7A ++ [C7p]) = some 0 ∧
    mergedUniqueReviews C7A = some 1 ∧
    mergedUniqueReviews (C7A ++ [C7p]) = some 0 := by
  decide

/-- C7 (amended): adding one snapshot can only grow `unique_reviews` and
`total_review_entries`, provided the metadata source keeps the same
submission list (the counterexample shows the statement fails when the new
snapshot changes the metadata source). -/
theorem claim_C7_monotonic_same_base :
    ∀ (L : List Snapshot) (p : Snapshot) (resA resB : List Submission) (bA bB : Snapshot),
      selectBase (sortSnapshots L) = .ok bA →
      selectBase (sortSnapshots (L ++ [p])) = .ok bB →
      bA.2 = bB.2 →
      merge_reviews L = .ok resA → merge_reviews (L ++ [p]) = .ok resB →
      (analyze_data resA).unique_reviews ≤ (analyze_data resB).unique_reviews ∧
      (analyze_data resA).total_review_entries ≤ (analyze_data resB).total_review_entries := by
  intro L p resA resB bA bB hbA hbB hbase hA hB
  constructor
  · rw [analyze_unique, analyze_unique]
    refine Finset.card_le_card ?_
    intro x hx
    rw [merge_ids_iff hA hbA] at hx
    rw [merge_ids_iff hB hbB]
    obtain ⟨e, hem, v, m, hx⟩ := hx
    refine ⟨e, ?_, v, m, trSet_append_subset L p e.1 hx⟩
    rw [← hbase]
    exact hem
  · rw [merge_total_eq hA hbA, merge_total_eq hB hbB, ← hbase]
    refine List.sum_le_sum ?_
    intro e hem
    exact Finset.card_le_card (trSet_append_subset L p e.1)

/-- Input list for the C7 witness. -/
def C7L : List Snapshot :=
  [("1", [⟨"X", 1, "x", [rxa, rya]⟩]), ("2", [⟨"X", 1, "x", [rxa]⟩])]

/-- Additional snapshot for the C7 witness: an earlier chronokey, so the
metadata source is unchanged. -/
def C7q : Snapshot := ("0", [⟨"X", 1, "x", [rxa, rya, rza]⟩])

/-- Witness for C7 (amended) at a concrete instance where the metadata
source is unchanged. -/
theorem claim_C7_witness :
    (analyze_data [(⟨"X", 1, "x", [rxa, rya]⟩ : Submission)]).unique_reviews
      ≤ (analyze_data [(⟨"X", 1, "x", [rxa, rza, rya]⟩ : Submission)]).unique_reviews ∧
    (analyze_data [(⟨"X", 1, "x", [rxa, rya]⟩ : Submission)]).total_review_entries
      ≤ (analyze_data [(⟨"X", 1, "x", [rxa, rza, rya]⟩ : Submission)]).total_review_entries :=
  claim_C7_monotonic_same_base C7L C7q
    [⟨"X", 1, "x", [rxa, rya]⟩] [⟨"X", 1, "x", [rxa, rza, rya]⟩]
    ("2", [⟨"X", 1, "x", [rxa]⟩]) ("2", [⟨"X", 1, "x", [rxa]⟩])
    (by decide) (by decide) (by decide) (by decide) (by decide)

/-! ### C9: the multi-version submission count -/

theorem filterMap_ids_eq_map {rs : List Review} (h : ∀ r ∈ rs, ¬ r.id = "") :
    rs.filterMap (fun r => if r.id = "" then none else some r.id) = rs.map Review.id := by
  induction rs with
  | nil => rfl
  | cons r rest ih =>
    rw [filterIds_cons_truthy rest (h r (List.mem_cons_self _ _)), List.map_cons,
      ih (fun x hx => h x (List.mem_cons_of_mem _ hx))]

theorem card_lt_length_iff_dup {α β : Type _} [DecidableEq β] (l : List α) (f : α → β) :
    (l.map f).toFinset.card < l.length ↔
      ∃ a ∈ l, 1 < l.countP (fun x => decide (f x = f a)) := by
  rw [List.card_toFinset, ← List.length_map l f]
  constructor
  · intro h
    have hnd : ¬ (l.map f).Nodup := by
      intro hnd
      rw [List.dedup_eq_self.mpr hnd] at h
      omega
    obtain ⟨b, hb⟩ := List.exists_duplicate_iff_not_nodup.mpr hnd
    have hcount : 2 ≤ List.count b (l.map f) := List.duplicate_iff_two_le_count.mp hb
    rcases List.mem_map.mp hb.mem with ⟨a, ha, hfa⟩
    refine ⟨a, ha, ?_⟩
    have hcc : List.count b (l.map f) = l.countP (fun x => decide (f x = f a)) := by
      rw [List.count_eq_countP, List.countP_map]
      refine List.countP_congr ?_
      intro x hx
      simp [← hfa]
    omega
  · rintro ⟨a, ha, hcount⟩
    have hc2 : 2 ≤ List.count (f a) (l.map f) := by
      have hcc : List.count (f a) (l.map f) = l.countP (fun x => decide (f x = f a)) := by
        rw [List.count_eq_countP, List.countP_map]
        refine List.countP_congr ?_
        intro x hx
        simp
      omega
    have hdup := List.duplicate_iff_two_le_count.mpr hc2
    have hnd := List.exists_duplicate_iff_not_nodup.mp ⟨_, hdup⟩
    have hle : (l.map f).dedup.length ≤ (l.map f).length :=
      (List.dedup_sublist _).length_le
    have hneq : ¬ (l.map f).dedup.length = (l.map f).length := by
      intro heq
      have hdd := (List.dedup_sublist (l.map f)).eq_of_length heq
      exact hnd (hdd ▸ (l.map f).nodup_dedup)
    omega

/-- The property of the claim, stated on the raw review list: some review id
occurs on more than one entry of the submission's review list. -/
def hasMultiVersionReview (s : Submission) : Bool :=
  s.directReplies.any (fun r =>
    decide (1 < s.directReplies.countP (fun r2 => decide (r2.id = r.id))))

/-- C9: when every review entry carries a review id, `multi_version_count`
equals the number of submissions in which at least one review id has more
than one entry. -/
theorem claim_C9_multi_version_count :
    ∀ data : List Submission, (∀ s ∈ data, ∀ r ∈ s.directReplies, ¬ r.id = "") →
      (analyze_data data).multi_version_count = data.countP hasMultiVersionReview := by
  intro data hids
  rw [analyze_multi]
  refine List.countP_congr ?_
  intro s hs
  have hsids := hids s hs
  have hglen : (analyzeGroups s.directReplies).length
      = ((s.directReplies.map Review.id).toFinset).card := by
    obtain ⟨hnd, hset⟩ := analyzeGroups_keys s.directReplies
    rw [← List.length_map (analyzeGroups s.directReplies) Prod.fst]
    rw [← List.toFinset_card_of_nodup hnd, hset, filterMap_ids_eq_map hsids]
  constructor
  · intro h
    rw [Bool.and_eq_true] at h
    obtain ⟨hne, hcond⟩ := h
    have hcond2 : ((s.directReplies.map Review.id).toFinset).card
        < s.directReplies.length := by
      rw [← hglen]
      exact of_decide_eq_true hcond
    obtain ⟨a, ha, hcnt⟩ :=
      (card_lt_length_iff_dup s.directReplies Review.id).mp hcond2
    rw [hasMultiVersionReview, List.any_eq_true]
    exact ⟨a, ha, decide_eq_true hcnt⟩
  · intro h
    rw [hasMultiVersionReview, List.any_eq_true] at h
    obtain ⟨a, ha, hcnt⟩ := h
    have hcond2 := (card_lt_length_iff_dup s.directReplies Review.id).mpr
      ⟨a, ha, of_decide_eq_true hcnt⟩
    rw [Bool.and_eq_true]
    constructor
    · cases hrep : s.directReplies with
      | nil =>
        rw [hrep] at ha
        simp at ha
      | cons x t => rfl
    · refine decide_eq_true ?_
      rw [hglen]
      exact hcond2

/-- Witness for C9 at a concrete dataset with one multi-version submission. -/
theorem claim_C9_witness :
    (analyze_data [⟨"A", 1, "a", [r1ex, r2ex]⟩, ⟨"B", 2, "b", [rxa]⟩]).multi_version_count
      = ([⟨"A", 1, "a", [r1ex, r2ex]⟩, (⟨"B", 2, "b", [rxa]⟩ : Submission)].countP
          hasMultiVersionReview) :=
  claim_C9_multi_version_count [⟨"A", 1, "a", [r1ex, r2ex]⟩, ⟨"B", 2, "b", [rxa]⟩]
    (by decide)

/-! ### Claim C8: classification by rating delta -/

/-- An official review version with the given id, version, mdate and
rating, used to state claim C8. -/
def revP (rid : String) (ver : Int) (md : Int) (rat : Option Int) : Review :=
  ⟨rid, 1, ver, md, rat, ["Official_Review"]⟩

/-- Claim C8: the change classifier computes delta as the rating of the
version with the latest mdate minus the rating of the version with the
earliest mdate; a review with two rated versions at distinct truthy mdates
classifies as increase when delta > 0, decrease when delta < 0, and
modified-no-rating-change when delta = 0, while a single-version official
review classifies as never-edited. -/
theorem claim_C8_classifier :
    (∀ ra rb ma mb : Int, ¬ ra = 0 → ¬ rb = 0 → 0 < ma → ma < mb →
      get_rating_changes [revP "R" 1 ma (some ra), revP "R" 2 mb (some rb)]
          = [("R", rb - ra)] ∧
      count_review_changes_by_type [revP "R" 1 ma (some ra), revP "R" 2 mb (some rb)]
          = (if ra < rb then 1 else 0, if rb < ra then 1 else 0,
             if ra = rb then 1 else 0, 0)) ∧
    (∀ r : Review, isOfficialReview r = true → ¬ r.id = "" →
      count_review_changes_by_type [r] = (0, 0, 0, 1)) := by
  constructor
  · intro ra rb ma mb hra hrb hma hmab
    have hch : get_rating_changes [revP "R" 1 ma (some ra), revP "R" 2 mb (some rb)]
        = [("R", rb - ra)] := by
      simp [get_rating_changes, odUpdate, ratingDelta, revP, hra, hrb, dateLe,
        le_of_lt hmab, List.insertionSort, List.orderedInsert]
    have h1 : ¬ ma = 0 := by omega
    have h2 : ¬ mb = 0 := by omega
    have hst : officialIdsAndMdates [revP "R" 1 ma (some ra), revP "R" 2 mb (some rb)]
        = (["R"], [("R", [ma, mb])]) := by
      simp [officialIdsAndMdates, odUpdate, revP, isOfficialReview, substrIn, h1, h2]
    refine ⟨hch, ?_⟩
    rw [count_review_changes_by_type, hch, hst]
    have hne : ¬ mb = ma := by omega
    have hnm : ma ∉ ([mb] : List Int) := by simp; omega
    have hdedup : ([ma, mb] : List Int).dedup.length = 2 := by
      rw [List.dedup_cons_of_not_mem hnm]; simp
    simp only [List.foldl_cons, List.foldl_nil, odFind]
    simp [hdedup]
    rcases lt_trichotomy ra rb with h | h | h
    · have h2 : ¬ rb < ra := by omega
      have h3 : ¬ ra = rb := by omega
      simp [h, h2, h3]
    · have h2 : ¬ ra < rb := by omega
      have h3 : ¬ rb < ra := by omega
      simp [h, h2, h3]
    · have h2 : ¬ ra < rb := by omega
      have h3 : rb < ra := by omega
      have h4 : ¬ ra = rb := by omega
      simp [h2, h3, h4]
  · intro r hoff hid
    by_cases hm : r.mdate = 0 <;>
      simp [count_review_changes_by_type, officialIdsAndMdates, hoff, hid, hm,
        odUpdate, odFind]

/-- Witness for C8 at the spec's concrete inputs: ratings [6, 8] at mdates
[100, 200] classify as increase with delta +2, ratings [6, 6] at distinct
mdates as modified-no-rating-change, and a single official review as
never-edited. -/
theorem claim_C8_witness :
    count_review_changes_by_type [revP "R" 1 100 (some 6), revP "R" 2 200 (some 8)]
        = (1, 0, 0, 0) ∧
    get_rating_changes [revP "R" 1 100 (some 6), revP "R" 2 200 (some 8)] = [("R", 2)] ∧
    count_review_changes_by_type [revP "R" 1 100 (some 6), revP "R" 2 200 (some 6)]
        = (0, 0, 1, 0) ∧
    count_review_changes_by_type [revP "R" 1 100 (some 6)] = (0, 0, 0, 1) := by
  have h := claim_C8_classifier
  have ha := h.1 6 8 100 200 (by decide) (by decide) (by decide) (by decide)
  have hb := h.1 6 6 100 200 (by decide) (by decide) (by decide) (by decide)
  have hc := h.2 (revP "R" 1 100 (some 6)) (by decide) (by decide)
  refine ⟨?_, ?_, ?_, hc⟩
  · simpa using ha.2
  · simpa using ha.1
  · simpa using hb.2

/-! ### Claim C10: only official reviews count -/

/-- Official review with a rated first version, used for claim C10. -/
def oC10a : Review := ⟨"R", 1, 1, 100, some 6, ["Official_Review"]⟩

/-- Official review second version without a rating, used for claim C10. -/
def oC10b : Review := ⟨"R", 1, 2, 200, none, ["Official_Review"]⟩

/-- Non-official comment sharing the official review's id, used for claim
C10. -/
def cC10 : Review := ⟨"R", 1, 3, 300, some 8, ["Official_Comment"]⟩

/-- Non-official comment with a fresh id, used for the claim C10 witness. -/
def cC10d : Review := ⟨"S", 1, 3, 300, some 8, ["Official_Comment"]⟩

/-- Looking up a key other than the updated one through the delta
`filterMap` is unaffected by an `odUpdate`. -/
theorem odFind_filterMap_odUpdate {κ β γ : Type _} [DecidableEq κ] (F : β → Option γ)
    (h : List (κ × β)) (k rid : κ) (f : Option β → β) (hne : ¬ rid = k) :
    odFind ((odUpdate h k f).filterMap (fun g => (F g.2).map (fun d => (g.1, d)))) rid
      = odFind (h.filterMap (fun g => (F g.2).map (fun d => (g.1, d)))) rid := by
  induction h with
  | nil =>
      have hk : ¬ k = rid := fun hh => hne hh.symm
      cases hF : F (f none) <;> simp [odUpdate, odFind, hF, hk]
  | cons p rest ih =>
      by_cases hk : p.1 = k
      · have hkr : ¬ k = rid := fun hh => hne hh.symm
        cases hF1 : F (f (some p.2)) <;> cases hF2 : F p.2 <;>
          simp [odUpdate, hk, odFind, hF1, hF2, hkr, List.filterMap_cons]
      · cases hF : F p.2 <;> by_cases hpr : p.1 = rid <;>
          simp [odUpdate, hk, odFind, hF, hpr, hne, List.filterMap_cons, ih]

/-- Every id collected by the first loop of `count_review_changes_by_type`
either was already in the accumulator or is the id of some official reply of
the input. -/
theorem officialIds_acc (replies : List Review) :
    ∀ acc : List String × List (String × List Int),
    ∀ rid ∈ (replies.foldl
      (fun st r =>
        if isOfficialReview r ∧ ¬ r.id = "" then
          ((if r.id ∈ st.1 then st.1 else st.1 ++ [r.id]),
           if r.mdate = 0 then st.2
           else odUpdate st.2 r.id (fun o => o.getD [] ++ [r.mdate]))
        else st) acc).1,
      rid ∈ acc.1 ∨ ∃ r ∈ replies, isOfficialReview r = true ∧ r.id = rid := by
  induction replies with
  | nil => intro acc rid h; exact .inl h
  | cons a as ih =>
      intro acc rid h
      simp only [List.foldl_cons] at h
      rcases ih _ rid h with hmem | ⟨r, hr, ho, hid⟩
      · by_cases hoff : isOfficialReview a ∧ ¬ a.id = ""
        · rw [if_pos hoff] at hmem
          by_cases hin : a.id ∈ acc.1
          · rw [if_pos hin] at hmem; exact .inl hmem
          · rw [if_neg hin] at hmem
            rcases List.mem_append.1 hmem with h1 | h1
            · exact .inl h1
            · right
              exact ⟨a, List.mem_cons_self a as, hoff.1, (List.mem_singleton.1 h1).symm⟩
        · rw [if_neg hoff] at hmem; exact .inl hmem
      · right; exact ⟨r, List.mem_cons_of_mem a hr, ho, hid⟩

/-- Counterexample to claim C10 as stated: `get_rating_changes` ignores
invitations, so a non-official comment that shares an official review's id
changes the four counts — the pair of official versions alone classifies as
modified-no-rating-change, but appending the rated comment flips the
classification to increase. -/
theorem claim_C10_counterexample :
    isOfficialReview cC10 = false ∧
    count_review_changes_by_type [oC10a, oC10b] = (0, 0, 1, 0) ∧
    count_review_changes_by_type [oC10a, oC10b, cC10] = (1, 0, 0, 0) := by decide

/-- Claim C10 (amended): a reply with no `Official_Review` invitation
contributes nothing to `count_reviews`, and contributes nothing to the four
counts of `count_review_changes_by_type` provided no official reply shares
its id — the proviso is forced because `get_rating_changes` ignores
invitations. -/
theorem claim_C10_non_official :
    (∀ (replies : List Review) (c : Review), isOfficialReview c = false →
      count_reviews (replies ++ [c]) = count_reviews replies) ∧
    (∀ (replies : List Review) (c : Review), isOfficialReview c = false →
      (∀ r ∈ replies, isOfficialReview r = true → ¬ r.id = c.id) →
      count_review_changes_by_type (replies ++ [c])
        = count_review_changes_by_type replies) := by
  constructor
  · intro replies c hco
    simp [count_reviews, List.foldl_append, hco]
  · intro replies c hco hdisj
    have hst : officialIdsAndMdates (replies ++ [c]) = officialIdsAndMdates replies := by
      simp [officialIdsAndMdates, List.foldl_append, hco]
    have hagree : ∀ rid, ¬ rid = c.id →
        odFind (get_rating_changes (replies ++ [c])) rid
          = odFind (get_rating_changes replies) rid := by
      intro rid hrid
      unfold get_rating_changes
      simp only [List.foldl_append, List.foldl_cons, List.foldl_nil]
      cases hr : c.rating with
      | none => rfl
      | some v =>
          by_cases hz : c.id = "" ∨ v = 0
          · simp [hz]
          · simp only []
            rw [if_neg hz]
            exact odFind_filterMap_odUpdate ratingDelta _ c.id rid _ hrid
    have hids : ∀ rid ∈ (officialIdsAndMdates replies).1, ¬ rid = c.id := by
      intro rid hrid
      rcases officialIds_acc replies ([], []) rid hrid with h | ⟨r, hr, ho, hid⟩
      · simp at h
      · exact fun hEq => hdisj r hr ho (hid.trans hEq)
    rw [count_review_changes_by_type, count_review_changes_by_type, hst]
    apply List.foldl_ext
    intro acc rid hrid
    simp only [hagree rid (hids rid hrid)]

/-- Witness for the amended C10 at a concrete input: a non-official comment
with a fresh id changes neither `count_reviews` nor the four counts. -/
theorem claim_C10_witness :
    isOfficialReview cC10d = false ∧
    count_reviews ([oC10a] ++ [cC10d]) = count_reviews [oC10a] ∧
    count_review_changes_by_type ([oC10a] ++ [cC10d])
      = count_review_changes_by_type [oC10a] := by
  refine ⟨by decide, ?_, ?_⟩
  · exact claim_C10_non_official.1 [oC10a] cC10d (by decide)
  · exact claim_C10_non_official.2 [oC10a] cC10d (by decide) (by decide)
